import Mathlib

/-!
Verification of the realtime-ocr backend (`backend/app.py`).

The Python source is shallowly embedded: strings are lists of characters,
floats are rationals, dict/list state is passed explicitly.  Each definition
mirrors one Python function of the source and keeps its name where Lean
allows it.
-/

set_option maxHeartbeats 1000000

namespace OCR

/-- Strings of the Python source are modelled as lists of characters. -/
abbrev Str := List Char

/-- Whitespace characters recognized by Python's `str.isspace` /
regex `\s` (the subset that can occur in the modelled texts). -/
def isSpaceChar (c : Char) : Bool :=
  c = ' ' ∨ c = '\t' ∨ c = '\n' ∨ c = '\r' ∨ c = '\x0b' ∨ c = '\x0c'

/-- Python `str.strip()`: drop whitespace from both ends. -/
def pyStrip (l : Str) : Str :=
  ((l.dropWhile isSpaceChar).reverse.dropWhile isSpaceChar).reverse

/-- ASCII lower-casing of one character (Python `str.lower` on the
modelled character set; CJK characters are unaffected, as in Python). -/
def lowerChar (c : Char) : Char :=
  if 'A' ≤ c ∧ c ≤ 'Z' then Char.ofNat (c.toNat + 32) else c

/-- ASCII upper-casing of one character. -/
def upperChar (c : Char) : Char :=
  if 'a' ≤ c ∧ c ≤ 'z' then Char.ofNat (c.toNat - 32) else c

/-- Python `str.lower()`. -/
def pyLower (l : Str) : Str := l.map lowerChar

/-- Python `str.upper()`. -/
def pyUpper (l : Str) : Str := l.map upperChar

/-- `is_english_alnum` of app.py: `char.isascii() and char.isalnum()`. -/
def is_english_alnum (c : Char) : Bool :=
  ('a' ≤ c ∧ c ≤ 'z') ∨ ('A' ≤ c ∧ c ≤ 'Z') ∨ ('0' ≤ c ∧ c ≤ '9')

/-- `CHINESE_CHAR_RANGES` of app.py. -/
def CHINESE_CHAR_RANGES : List (Nat × Nat) :=
  [(0x4E00, 0x9FFF), (0x3400, 0x4DBF), (0x20000, 0x2A6DF)]

/-- `is_chinese_char` of app.py: code point inside one of the CJK ranges. -/
def is_chinese_char (c : Char) : Bool :=
  CHINESE_CHAR_RANGES.any fun p => p.1 ≤ c.toNat ∧ c.toNat ≤ p.2

/-- `ENGLISH_TO_CHINESE_PUNCT` of app.py, as an association list. -/
def ENGLISH_TO_CHINESE_PUNCT : List (Char × Char) :=
  [(',', '，'), ('.', '。'), ('!', '！'), ('?', '？'), (':', '：'),
   (';', '；'), ('(', '（'), (')', '）'), ('[', '【'), (']', '】')]

/-- `CHINESE_TO_ENGLISH_PUNCT` of app.py: the inverted table. -/
def CHINESE_TO_ENGLISH_PUNCT : List (Char × Char) :=
  ENGLISH_TO_CHINESE_PUNCT.map fun p => (p.2, p.1)

/-- Python `dict.get(ch, ch)` over an association list. -/
def tableGet (t : List (Char × Char)) (c : Char) : Char :=
  match t.lookup c with
  | some v => v
  | none => c

/-- Membership test `ch in dict` over an association list. -/
def tableMem (t : List (Char × Char)) (c : Char) : Bool :=
  (t.lookup c).isSome

/-- Coarse classification of one character as seen by the punctuation
normalizer's context scan: whitespace, English alphanumeric, CJK
ideograph, or anything else. -/
inductive CharClass where
  | space | eng | cjk | other
deriving DecidableEq, Repr

/-- Classifies a character the way `context_flags` inspects it. -/
def classOf (c : Char) : CharClass :=
  if isSpaceChar c then .space
  else if is_english_alnum c then .eng
  else if is_chinese_char c then .cjk
  else .other

/-- Directional context signal: what the first non-space character in one
direction contributes (`english`, `chinese`, or nothing). -/
inductive Sig where
  | eng | cjk | none_
deriving DecidableEq, Repr

/-- Signal of one character once the scan stops on it. -/
def sigOfClass : CharClass → Sig
  | .eng => .eng
  | .cjk => .cjk
  | _ => .none_

/-- Scan of `context_flags` in direction `-1`: inspect positions
`i-1, i-2, ...`, skipping whitespace, and classify the first
non-space character found. -/
def sigLeft (cs : Str) : Nat → Sig
  | 0 => .none_
  | j + 1 =>
    match cs.get? j with
    | none => .none_
    | some c => if isSpaceChar c then sigLeft cs j else sigOfClass (classOf c)

/-- Forward scan over a suffix: skip whitespace, classify the first
non-space character. -/
def sigFwd : Str → Sig
  | [] => .none_
  | c :: r => if isSpaceChar c then sigFwd r else sigOfClass (classOf c)

/-- Scan of `context_flags` in direction `+1`: inspect positions
`j, j+1, ...`, skipping whitespace, and classify the first non-space
character found. -/
def sigRight (cs : Str) (j : Nat) : Sig :=
  sigFwd (cs.drop j)

/-- `context_flags(i)` of `normalize_punctuation_by_language`: the pair
(english, chinese) of booleans accumulated over both directions. -/
def context_flags (cs : Str) (i : Nat) : Bool × Bool :=
  let l := sigLeft cs i
  let r := sigRight cs (i + 1)
  (l = Sig.eng ∨ r = Sig.eng, l = Sig.cjk ∨ r = Sig.cjk)

/-- Character classes of a string, the only data the context scan reads. -/
def classMap (cs : Str) : List CharClass := cs.map classOf

/-- `sigFwd` expressed on character classes. -/
def sigFwdC : List CharClass → Sig
  | [] => .none_
  | cl :: r => if cl = .space then sigFwdC r else sigOfClass cl

/-- `sigLeft` expressed on character classes. -/
def sigLeftC (m : List CharClass) : Nat → Sig
  | 0 => .none_
  | j + 1 =>
    match m.get? j with
    | none => .none_
    | some cl => if cl = .space then sigLeftC m j else sigOfClass cl

/-- `context_flags` expressed on character classes. -/
def context_flagsC (m : List CharClass) (i : Nat) : Bool × Bool :=
  let l := sigLeftC m i
  let r := sigFwdC (m.drop (i + 1))
  (l = Sig.eng ∨ r = Sig.eng, l = Sig.cjk ∨ r = Sig.cjk)

/-- Conversion applied to one punctuation character, given the context
flags: English-only context forces the ASCII form, Chinese-only context
forces the full-width form, anything else leaves it unchanged. -/
def convertPunct (c : Char) (flags : Bool × Bool) : Char :=
  if flags.1 ∧ ¬flags.2 then tableGet CHINESE_TO_ENGLISH_PUNCT c
  else if flags.2 ∧ ¬flags.1 then tableGet ENGLISH_TO_CHINESE_PUNCT c
  else c

/-- One iteration of the normalizer's loop body at index `i`: characters
outside both punctuation tables are skipped, others are rewritten
from the context computed on the current (partially rewritten) list. -/
def npStep (cs : Str) (i : Nat) : Str :=
  match cs.get? i with
  | none => cs
  | some c =>
    if ¬tableMem CHINESE_TO_ENGLISH_PUNCT c ∧ ¬tableMem ENGLISH_TO_CHINESE_PUNCT c then cs
    else cs.set i (convertPunct c (context_flags cs i))

/-- Value the loop writes at one position (identity on characters
outside both punctuation tables), as a function of the context flags. -/
def npConv (c : Char) (flags : Bool × Bool) : Char :=
  if ¬ tableMem CHINESE_TO_ENGLISH_PUNCT c ∧ ¬ tableMem ENGLISH_TO_CHINESE_PUNCT c then c
  else convertPunct c flags

/-- Loop of `normalize_punctuation_by_language`, from index `i` upward,
mutating the character list in place as the Python code does.  The
fuel argument counts the remaining iterations; since `npStep`
preserves the length, fuel `cs.length - i` runs the loop to the end. -/
def npGo : Nat → Str → Nat → Str
  | 0, cs, _ => cs
  | fuel + 1, cs, i => if i < cs.length then npGo fuel (npStep cs i) (i + 1) else cs

/-- `normalize_punctuation_by_language` of app.py. -/
def normalize_punctuation_by_language (text : Str) : Str :=
  if text = [] then text else npGo text.length text 0

/-- Walk of the whitespace collapse: `inRun` records whether the previous
character belonged to a whitespace run that already emitted its
single space. -/
def collapseGo (inRun : Bool) : Str → Str
  | [] => []
  | c :: r =>
    if isSpaceChar c then
      if inRun then collapseGo true r else ' ' :: collapseGo true r
    else c :: collapseGo false r

/-- Collapse of `re.sub(r'\s+', ' ', text)`: every maximal whitespace run
becomes one space. -/
def collapse_whitespace (l : Str) : Str := collapseGo false l

/-- Characters stripped from the string boundaries by
`re.sub(r'^[<>\|` + "`" + `~]+', '', ...)` and its trailing twin. -/
def isArtifactChar (c : Char) : Bool :=
  c = '<' ∨ c = '>' ∨ c = '|' ∨ c = Char.ofNat 96 ∨ c = '~'

/-- Edge-artifact strip of `clean_ocr_text`: remove the leading and the
trailing run of artifact characters. -/
def strip_edge_artifacts (l : Str) : Str :=
  ((l.dropWhile isArtifactChar).reverse.dropWhile isArtifactChar).reverse

/-- Python `text.split('\n')` (keeps empty pieces). -/
def splitLinesNl : Str → List Str
  | [] => [[]]
  | c :: r =>
    if c = '\n' then [] :: splitLinesNl r
    else
      match splitLinesNl r with
      | [] => [[c]]
      | h :: t => (c :: h) :: t

/-- Keep test of the single-character-line filter: length above one, or
the lower-cased line is the word a or the word i. -/
def keepLine (l : Str) : Bool :=
  l.length > 1 ∨ pyLower l = ['a'] ∨ pyLower l = ['i']

/-- Python `sep.join(parts)`. -/
def joinSep (sep : Str) : List Str → Str
  | [] => []
  | [x] => x
  | x :: y :: t => x ++ sep ++ joinSep sep (y :: t)

/-- Single-character-line drop of `clean_ocr_text`: split on newlines,
strip each line, keep only meaningful lines, rejoin with single spaces. -/
def drop_single_char_lines (t : Str) : Str :=
  joinSep [' '] (((splitLinesNl t).map pyStrip).filter keepLine)

/-- Word character of the regex `\b` boundary (`\w` restricted to the
modelled character set: ASCII alphanumerics, underscore, CJK ideographs). -/
def isWordChar (c : Char) : Bool :=
  is_english_alnum c ∨ c = '_' ∨ is_chinese_char c

/-- ASCII letter, the regex class `[a-zA-Z]`. -/
def isAsciiLetter (c : Char) : Bool :=
  ('a' ≤ c ∧ c ≤ 'z') ∨ ('A' ≤ c ∧ c ≤ 'Z')

/-- ASCII lowercase letter. -/
def isLowerChar (c : Char) : Bool := 'a' ≤ c ∧ c ≤ 'z'

/-- ASCII uppercase letter. -/
def isUpperChar (c : Char) : Bool := 'A' ≤ c ∧ c ≤ 'Z'

/-- Word boundary `\b` before a word character, decided from the previous
character of the scan (`none` at the very start of the string). -/
def boundaryBefore (prev : Option Char) : Bool :=
  match prev with
  | none => true
  | some c => ¬ isWordChar c

/-- Word boundary `\b` after a word character, decided from the rest of
the string. -/
def boundaryAfter (rest : Str) : Bool :=
  match rest.head? with
  | none => true
  | some c => ¬ isWordChar c

/-- Case-insensitive literal match: `splitCI pat l` consumes `pat`
(given lower-cased) from the front of `l`, returning the consumed
original characters and the remainder. -/
def splitCI : Str → Str → Option (Str × Str)
  | [], l => some ([], l)
  | _ :: _, [] => none
  | p :: ps, c :: cs =>
    if lowerChar c = p then (splitCI ps cs).map fun pr => (c :: pr.1, pr.2)
    else none

/-- Greedy `\s+`: consume one or more whitespace characters. -/
def splitSpaces1 (l : Str) : Option (Str × Str) :=
  match l.takeWhile isSpaceChar with
  | [] => none
  | s => some (s, l.dropWhile isSpaceChar)

/-- Literal one-character match. -/
def splitLit (ch : Char) : Str → Option (Str × Str)
  | [] => none
  | c :: cs => if c = ch then some ([c], cs) else none

/-- Python `str.isupper()` on the modelled (ASCII-cased) character set:
at least one cased character and no lowercase character. -/
def pyIsUpper (l : Str) : Bool :=
  l.any (fun c => isLowerChar c ∨ isUpperChar c) ∧ l.all fun c => ¬ isLowerChar c

/-- Python `str.capitalize()`: first character upper-cased, the rest
lower-cased. -/
def pyCapitalize : Str → Str
  | [] => []
  | c :: r => upperChar c :: pyLower r

/-- `preserve_case` of `apply_simple_post_corrections`. -/
def preserve_case (original replacement : Str) : Str :=
  if original = [] then replacement
  else if pyIsUpper original then pyUpper replacement
  else if original.head?.elim false isUpperChar then pyCapitalize replacement
  else replacement

/-- Matcher for the pattern `\bWHAT\s+IS\s+I\?` with `re.IGNORECASE`:
returns the matched text and the remainder, or `none`. -/
def match_what_is_i (prev : Option Char) (l : Str) : Option (Str × Str) := do
  if ¬ boundaryBefore prev then none
  else
    let (a, r1) ← splitCI "what".toList l
    let (b, r2) ← splitSpaces1 r1
    let (c, r3) ← splitCI "is".toList r2
    let (d, r4) ← splitSpaces1 r3
    let (e, r5) ← splitCI "i".toList r4
    let (f, r6) ← splitLit '?' r5
    some (a ++ b ++ c ++ d ++ e ++ f, r6)

/-- Matcher for the pattern `\bTAKE\s+I\b` with `re.IGNORECASE`. -/
def match_take_i (prev : Option Char) (l : Str) : Option (Str × Str) := do
  if ¬ boundaryBefore prev then none
  else
    let (a, r1) ← splitCI "take".toList l
    let (b, r2) ← splitSpaces1 r1
    let (c, r3) ← splitCI "i".toList r2
    if boundaryAfter r3 then some (a ++ b ++ c, r3) else none

/-- Matcher for `AWORD_PATTERN`, the regex `\b([Aa])([A-Z][a-zA-Z]+)\b`:
an article character glued to a capitalized word of length at least
two, delimited by word boundaries. -/
def match_aword (prev : Option Char) (l : Str) : Option (Str × Str) :=
  match l with
  | c1 :: c2 :: rest =>
    if boundaryBefore prev ∧ (c1 = 'a' ∨ c1 = 'A') ∧ isUpperChar c2 then
      let run := rest.takeWhile isAsciiLetter
      let rm := rest.dropWhile isAsciiLetter
      if run ≠ [] ∧ boundaryAfter rm then some (c1 :: c2 :: run, rm) else none
    else none
  | _ => none

/-- Modelled from the spec: the external spell-check dictionary used by
the article-split heuristic (the `spellchecker` collaborator bundled
with the pyspellchecker package, not part of this repository).  Only
membership of a handful of ordinary lower-cased English words is
relied on, which the spec describes as recognized dictionary words. -/
def knownWords : List Str :=
  ["take".toList, "what".toList, "word".toList, "words".toList,
   "world".toList, "hello".toList, "apple".toList, "it".toList,
   "is".toList]

/-- Replacement function of `split_aword`: insert a space after the
article when the trailing token, lower-cased, is a dictionary word;
otherwise return the match unchanged. -/
def rep_aword (mt : Str) : Str :=
  match mt with
  | c1 :: rest => if pyLower rest ∈ knownWords then c1 :: ' ' :: rest else mt
  | [] => mt

/-- Engine of `re.sub` for the three correction patterns: scan from left
to right, replace each non-overlapping match, continue after it.  The
matchers always consume at least one character, so fuel equal to the
string length runs the scan to completion, and the inner length guard
never fires (it only keeps a non-consuming matcher from looping). -/
def pySubGo (m : Option Char → Str → Option (Str × Str)) (rep : Str → Str) :
    Nat → Option Char → Str → Str
  | 0, _, l => l
  | _ + 1, _, [] => []
  | fuel + 1, prev, c :: rest =>
    match m prev (c :: rest) with
    | some (mt, rm) =>
      if rm.length < (c :: rest).length then
        rep mt ++ pySubGo m rep fuel (mt.getLast?.orElse fun _ => prev) rm
      else c :: pySubGo m rep fuel (some c) rest
    | none => c :: pySubGo m rep fuel (some c) rest

/-- Substitution of one pattern over a whole string, Python `pattern.sub`. -/
def pySub (m : Option Char → Str → Option (Str × Str)) (rep : Str → Str)
    (prev : Option Char) (l : Str) : Str :=
  pySubGo m rep l.length prev l

/-- `apply_simple_post_corrections` of app.py: the two fixed phrase
corrections in order, then the generic article split. -/
def apply_simple_post_corrections (text : Str) : Str :=
  if text = [] then text
  else
    let t1 := pySub match_what_is_i
      (fun mt => preserve_case mt "what is it?".toList) none text
    let t2 := pySub match_take_i
      (fun mt => preserve_case mt "take it".toList) none t1
    pySub match_aword rep_aword none t2

/-- `clean_ocr_text` of app.py: whitespace collapse, edge-artifact strip,
single-character-line drop, punctuation normalization, phrase and
article corrections, final strip. -/
def clean_ocr_text (text : Str) : Str :=
  if text = [] then []
  else
    pyStrip (apply_simple_post_corrections (normalize_punctuation_by_language
      (drop_single_char_lines (strip_edge_artifacts (collapse_whitespace text)))))

/-- Stable insertion used to model Python's `list.sort`: the new element
goes after every existing element `b` with `le b a`, so equal keys
keep their arrival order. -/
def insertLe (le : α → α → Bool) (a : α) : List α → List α
  | [] => [a]
  | b :: l => if le b a then b :: insertLe le a l else a :: b :: l

/-- Python's stable `list.sort(key=...)`: fold the list left to right,
inserting each element into the sorted accumulator. -/
def pySort (le : α → α → Bool) (l : List α) : List α :=
  l.foldl (fun acc x => insertLe le x acc) []

/-- Python `max(iterable, key=f)`: the first element of maximal key. -/
def pyMaxBy (f : α → ℚ) (a : α) (l : List α) : α :=
  l.foldl (fun b x => if f b < f x then x else b) a

/-- Rect of app.py's `bbox_to_rect`: axis-aligned extrema of a bbox plus
derived center, height and width. -/
structure Rect where
  x_min : ℚ
  x_max : ℚ
  y_min : ℚ
  y_max : ℚ
  mid_y : ℚ
  height : ℚ
  width : ℚ
deriving DecidableEq, Repr

/-- Python `min` over a nonempty list (defaults to 0 on `[]`, a case the
callers rule out by the bbox-length guard). -/
def listMin : List ℚ → ℚ
  | [] => 0
  | x :: r => r.foldl min x

/-- Python `max` over a nonempty list. -/
def listMax : List ℚ → ℚ
  | [] => 0
  | x :: r => r.foldl max x

/-- `bbox_to_rect` of app.py.  Width and height are floored at 1 here
(and only here; cluster updates recompute them without the floor,
exactly as the source does). -/
def bbox_to_rect (bbox : List (ℚ × ℚ)) : Rect :=
  let xs := bbox.map Prod.fst
  let ys := bbox.map Prod.snd
  let x0 := listMin xs
  let x1 := listMax xs
  let y0 := listMin ys
  let y1 := listMax ys
  { x_min := x0, x_max := x1, y_min := y0, y_max := y1,
    mid_y := (y0 + y1) / 2, height := max 1 (y1 - y0), width := max 1 (x1 - x0) }

/-- Segment record fed to the merger: normalized text, bbox, confidence. -/
structure Segment where
  text : Str
  bbox : List (ℚ × ℚ)
  confidence : ℚ
deriving DecidableEq, Repr

/-- Segment paired with its `_rect`, as the merger carries it. -/
abbrev SegR := Segment × Rect

/-- Open line cluster of Phase 1 / block of Phase 2. -/
structure Cluster where
  segs : List SegR
  rect : Rect
deriving DecidableEq, Repr

/-- Sort key `(y_min, x_min)` of the merger, as a boolean total preorder. -/
def segKeyLe (a b : SegR) : Bool :=
  a.2.y_min < b.2.y_min ∨ (a.2.y_min = b.2.y_min ∧ a.2.x_min ≤ b.2.x_min)

/-- Union-rect update applied when a segment or block joins a cluster:
extrema are merged and width/height/mid recomputed without the floor,
mirroring the in-place dict update of the source. -/
def unionRect (lr r : Rect) : Rect :=
  let x0 := min lr.x_min r.x_min
  let x1 := max lr.x_max r.x_max
  let y0 := min lr.y_min r.y_min
  let y1 := max lr.y_max r.y_max
  { x_min := x0, x_max := x1, y_min := y0, y_max := y1,
    width := x1 - x0, height := y1 - y0, mid_y := (y0 + y1) / 2 }

/-- Phase-1 same-row test of the merger: centers within
`0.60 × max(heights)` and horizontal gap at most 40. -/
def sameRowMatch (r lr : Rect) : Bool :=
  |r.mid_y - lr.mid_y| ≤ max r.height lr.height * (3/5) ∧ r.x_min - lr.x_max ≤ 40

/-- Append a segment to a cluster and refresh its union rect. -/
def clusterAdd (c : Cluster) (s : SegR) : Cluster :=
  { segs := c.segs ++ [s], rect := unionRect c.rect s.2 }

/-- Place one segment: scan the open clusters in order, join the first
same-row match, or open a new cluster at the end of the list. -/
def place : List Cluster → SegR → List Cluster
  | [], s => [{ segs := [s], rect := s.2 }]
  | c :: cs, s =>
    if sameRowMatch s.2 c.rect then clusterAdd c s :: cs
    else c :: place cs s

/-- Phase 1 of `merge_segments_into_lines`: fold the sorted segments into
horizontal row clusters. -/
def phase1 (l : List SegR) : List Cluster := l.foldl place []

/-- `should_merge_vertical` of app.py. -/
def should_merge_vertical (upper lower : Rect) : Bool :=
  let p := if upper.y_min > lower.y_min then (lower, upper) else (upper, lower)
  let u := p.1
  let lo := p.2
  let x_overlap := min u.x_max lo.x_max - max u.x_min lo.x_min
  if x_overlap ≤ 0 then false
  else
    let width_min := min u.width lo.width
    let overlapFrac := x_overlap / max 1 width_min
    let heightFrac := min u.height lo.height / max 1 (max u.height lo.height)
    let overlapThreshold : ℚ := if heightFrac < 3/5 then 13/20 else 9/20
    if overlapFrac < overlapThreshold then false
    else
      let vertical_gap := lo.y_min - u.y_max
      let max_gap := min 12 (max u.height lo.height * (3/10))
      if vertical_gap < 0 then true
      else if vertical_gap < 10 then true
      else if vertical_gap > max_gap then false
      else true

/-- Merge two adjacent vertical blocks: concatenate their segments and
union their rects. -/
def mergeClusters (prev curr : Cluster) : Cluster :=
  { segs := prev.segs ++ curr.segs, rect := unionRect prev.rect curr.rect }

/-- One step of Phase 2 over the reversed accumulator: merge into the
previous block when `should_merge_vertical` accepts, else start a new
block. -/
def phase2Step (acc : List Cluster) (line : Cluster) : List Cluster :=
  match acc with
  | [] => [line]
  | prev :: rest =>
    if should_merge_vertical prev.rect line.rect then mergeClusters prev line :: rest
    else line :: prev :: rest

/-- Phase 2 of `merge_segments_into_lines`: adaptive vertical merging of
the y-sorted clusters. -/
def phase2 (ls : List Cluster) : List Cluster :=
  (ls.foldl phase2Step []).reverse

/-- Output line of the merger. -/
structure Line where
  text : Str
  bbox : List (ℚ × ℚ)
  confidence : ℚ
  children : List Segment
deriving DecidableEq, Repr

/-- Join of one reconstructed row: texts joined with single spaces, then
stripped. -/
def joinRow (ts : List Str) : Str := pyStrip (joinSep [' '] ts)

/-- Row-splitting fold of Phase 3: start a new output row whenever a
segment's center is farther than the threshold from the previous
segment's center. -/
def rowsGo (thr : ℚ) (acc : List Str) (curr : List Str) (y : ℚ) :
    List SegR → List Str
  | [] => if curr = [] then acc else acc ++ [joinRow curr]
  | s :: rest =>
    if |s.2.mid_y - y| > thr ∧ curr ≠ [] then
      rowsGo thr (acc ++ [joinRow curr]) [s.1.text] s.2.mid_y rest
    else rowsGo thr acc (curr ++ [s.1.text]) s.2.mid_y rest

/-- Sum of the member segments' confidences. -/
def sumConf (segs : List SegR) : ℚ := (segs.map fun s => s.1.confidence).sum

/-- Phase 3 on one merged block: re-sort the children, rebuild the text
with line breaks, average the confidences, emit the output line (or
nothing when the text comes out empty). -/
def lineOutput (c : Cluster) : Option Line :=
  match pySort segKeyLe c.segs with
  | [] => none
  | s0 :: tail =>
    let segs := s0 :: tail
    let thr := max 8 (c.rect.height * (35/100))
    let rows := rowsGo thr [] [] s0.2.mid_y segs
    let clean_text := pyStrip (joinSep ['\n'] (rows.filter fun r => r ≠ []))
    if clean_text = [] then none
    else some {
      text := clean_text
      bbox := [(c.rect.x_min, c.rect.y_min), (c.rect.x_max, c.rect.y_min),
               (c.rect.x_max, c.rect.y_max), (c.rect.x_min, c.rect.y_max)]
      confidence := sumConf segs / ((max 1 segs.length : ℕ) : ℚ)
      children := segs.map Prod.fst }

/-- Pre-processing of the merger: keep segments with non-empty stripped
text and a 4-point bbox, pairing each with its rect. -/
def processedOf (segments : List Segment) : List SegR :=
  segments.filterMap fun s =>
    if pyStrip s.text ≠ [] ∧ s.bbox.length = 4 then some (s, bbox_to_rect s.bbox)
    else none

/-- Phase-1 clusters as computed inside `merge_segments_into_lines`:
filter, sort by `(y_min, x_min)`, fold into row clusters. -/
def phase1Clusters (segments : List Segment) : List Cluster :=
  phase1 (pySort segKeyLe (processedOf segments))

/-- `merge_segments_into_lines` of app.py. -/
def merge_segments_into_lines (segments : List Segment) : List Line :=
  if segments = [] then []
  else
    let sorted := pySort (fun a b : Cluster => a.rect.y_min ≤ b.rect.y_min)
      (phase1Clusters segments)
    (phase2 sorted).filterMap lineOutput

/-- Vertical position of an output line, read from its bbox (the first
corner is `(x_min, y_min)`). -/
def lineTop (L : Line) : ℚ :=
  match L.bbox with
  | p :: _ => p.2
  | [] => 0

/-- Walk of Python `str.split()`: `cur` is the word currently being
accumulated (`none` while inside whitespace). -/
def wordsGo (cur : Option Str) : Str → List Str
  | [] =>
    match cur with
    | none => []
    | some w => [w]
  | c :: r =>
    if isSpaceChar c then
      match cur with
      | none => wordsGo none r
      | some w => w :: wordsGo none r
    else
      match cur with
      | none => wordsGo (some [c]) r
      | some w => wordsGo (some (w ++ [c])) r

/-- Python `str.split()` without arguments: the maximal non-whitespace
runs, in order, with no empty pieces. -/
def pyWords (l : Str) : List Str := wordsGo none l

/-- Greedy word-wrap phase of `wrap_text_to_width`: extend the current
line while the measured width fits, else emit it and start over. -/
def wrapGreedy (measure : Str → ℤ) (max_width : ℤ) : Str → List Str → List Str
  | current, [] => [current]
  | current, w :: ws =>
    let candidate := current ++ ' ' :: w
    if measure candidate ≤ max_width then wrapGreedy measure max_width candidate ws
    else current :: wrapGreedy measure max_width w ws

/-- Per-character fallback of `wrap_text_to_width` for a line still wider
than the box: grow a buffer character by character, emitting it
whenever the next character no longer fits. -/
def charSplitGo (measure : Str → ℤ) (max_width : ℤ) (buffer : Str) :
    Str → List Str
  | [] => if buffer = [] then [] else [buffer]
  | ch :: rest =>
    let candidate := buffer ++ [ch]
    if measure candidate ≤ max_width then charSplitGo measure max_width candidate rest
    else (if buffer = [] then [] else [buffer]) ++ charSplitGo measure max_width [ch] rest

/-- `wrap_text_to_width` of `render_translated_overlay`, parametrized by
the font's measuring function (the width component of `measure_text`). -/
def wrap_text_to_width (measure : Str → ℤ) (max_width : ℤ) (text : Str) : List Str :=
  match pyWords text with
  | [] => [text]
  | w :: ws =>
    let lines := wrapGreedy measure max_width w ws
    lines.flatMap fun line =>
      if measure line ≤ max_width then [line]
      else charSplitGo measure max_width [] line

/-- Raw detection returned by the recognition engine: quadrilateral,
text, confidence (`det[0]`, `det[1]`, `det[2]`). -/
structure Detection where
  bbox : List (ℚ × ℚ)
  text : Str
  conf : ℚ
deriving DecidableEq, Repr

/-- One whole-image transcript candidate produced by one pass. -/
structure Candidate where
  text : Str
  length : ℕ
  config : Str
  engine : Str
  confidence : ℚ
  segments : List Segment
  coordinate_space : Str
deriving DecidableEq, Repr

/-- `MIN_CONFIDENCE` of app.py. -/
def MIN_CONFIDENCE : ℚ := 1/10

/-- `HIGH_CONFIDENCE_THRESHOLD` of app.py. -/
def HIGH_CONFIDENCE_THRESHOLD : ℚ := 19/20

/-- `CONFIG_PRIORITY_WEIGHT` of app.py. -/
def CONFIG_PRIORITY_WEIGHT : ℚ := 4

/-- `WORD_FREQUENCY_WEIGHT` of app.py. -/
def WORD_FREQUENCY_WEIGHT : ℚ := 6

/-- `get_config_priority` of app.py. -/
def get_config_priority (config : Str) : ℚ :=
  if config = [] then 1
  else if config = "original_easyocr".toList then 3
  else if config = "resized_easyocr".toList then 2
  else if "preprocess_".toList.isPrefixOf config then 1
  else 1

/-- Join with single spaces, Python `' '.join(...)`. -/
def joinSpace (parts : List Str) : Str := joinSep [' '] parts

/-- Candidate construction shared by every recognition pass of
`ocr_with_easyocr` / `ocr_with_preprocess_easyocr`: filter detections
by the confidence floor, build cleaned segments, clean the joined
transcript, and emit one candidate when the text is non-empty. -/
def passCandidates (config coord : Str) (dets : List Detection) : List Candidate :=
  if dets = [] then []
  else
    let filtered := dets.filter fun d => MIN_CONFIDENCE ≤ d.conf
    let segments := filtered.filterMap fun d =>
      let t := clean_ocr_text d.text
      if t = [] then none else some (⟨t, d.bbox, d.conf⟩ : Segment)
    let text := clean_ocr_text (pyStrip (joinSpace (filtered.map Detection.text)))
    if text = [] then []
    else
      [{ text := text, length := text.length, config := config,
         engine := "easyocr".toList,
         confidence := (filtered.map Detection.conf).sum / ((max 1 filtered.length : ℕ) : ℚ),
         segments := segments, coordinate_space := coord }]

/-- `ocr_with_easyocr` of app.py: the pass on the untouched image, plus
the inverted-image pass when the background is dark.  The recognition
engine's outputs are the detection-list inputs. -/
def ocr_with_easyocr (orig : List Detection) (darkBackground : Bool)
    (inverted : List Detection) : List Candidate :=
  passCandidates "original_easyocr".toList "original".toList orig ++
    (if darkBackground then
      passCandidates "inverted_easyocr".toList "original".toList inverted
     else [])

/-- `ocr_with_preprocess_easyocr` of app.py: the adaptive, Otsu and
grayscale passes in dict order, plus the inverted-grayscale pass. -/
def ocr_with_preprocess_easyocr (adaptive otsu grayscale grayscaleInverted :
    List Detection) : List Candidate :=
  passCandidates "preprocess_adaptive".toList "preprocess_adaptive".toList adaptive ++
  passCandidates "preprocess_otsu".toList "preprocess_otsu".toList otsu ++
  passCandidates "preprocess_grayscale".toList "preprocess_grayscale".toList grayscale ++
  passCandidates "inverted_preprocess_grayscale".toList
    "inverted_preprocess_grayscale".toList grayscaleInverted

/-- One `word_freq[key] = word_freq.get(key, 0) + 1` update. -/
def bumpWord (m : Str → ℕ) (w : Str) : Str → ℕ :=
  fun k => if k = w then m w + 1 else m k

/-- Add every word occurrence of one candidate's text to the map. -/
def addCandidateWords (m : Str → ℕ) (r : Candidate) : Str → ℕ :=
  (pyWords r.text).foldl (fun m w => bumpWord m (pyLower w)) m

/-- Word-frequency map of the `/api/ocr` scoring stage, built over all
candidates; absent keys read as 0. -/
def buildWordFreq (rs : List Candidate) : Str → ℕ :=
  rs.foldl addCandidateWords fun _ => 0

/-- Python `word_freq.get(w, 1)`: keys were only ever incremented, so a
key is absent exactly when the map reads 0. -/
def wfGet (m : Str → ℕ) (w : Str) : ℕ :=
  if m w = 0 then 1 else m w

/-- `score` of the `/api/ocr` selection: confidence, length, config
priority, and average corroboration of the candidate's distinct
lower-cased words. -/
def score (wf : Str → ℕ) (r : Candidate) : ℚ :=
  let base := r.confidence * 100 + (r.length : ℚ) +
    get_config_priority r.config * CONFIG_PRIORITY_WEIGHT
  let words := ((pyWords r.text).filter fun w => pyStrip w ≠ []).map pyLower
  if words = [] then base
  else
    let distinct := words.dedup
    base + ((distinct.map fun w => (wfGet wf w : ℚ)).sum /
      ((max 1 distinct.length : ℕ) : ℚ)) * WORD_FREQUENCY_WEIGHT

/-- Response of the `/api/ocr` endpoint, reduced to what the claims
constrain: the empty-result sentinel, or a selected candidate. -/
inductive OcrResponse where
  | noText
  | found (c : Candidate)
deriving DecidableEq, Repr

/-- Python `max(candidates, key=confidence)` on a nonempty list. -/
def firstMaxConf : List Candidate → Option Candidate
  | [] => none
  | c :: r => some (pyMaxBy (fun x => x.confidence) c r)

/-- Short-circuit decision of the `/api/ocr` endpoint: the maximum-
confidence candidate of the non-preprocessed passes, if its
confidence reaches the high-confidence threshold. -/
def shortCircuitOf (originals : List Candidate) : Option Candidate :=
  match firstMaxConf originals with
  | some b => if HIGH_CONFIDENCE_THRESHOLD ≤ b.confidence then some b else none
  | none => none

/-- Weighted-scoring selection of the `/api/ocr` endpoint: stable sort
descending by score over the accumulated candidates, take the top. -/
def selectScored (all_results : List Candidate) : OcrResponse :=
  let wf := buildWordFreq all_results
  match pySort (fun a b => score wf b ≤ score wf a) all_results with
  | [] => .noText
  | b :: _ => .found b

/-- Selection logic of the `/api/ocr` endpoint: short-circuit on a
high-confidence candidate from the non-preprocessed passes, otherwise
run the preprocessing passes, return the sentinel when nothing was
produced, and pick the top of the stable score-descending sort. -/
def ocr (orig : List Detection) (darkBackground : Bool)
    (inverted adaptive otsu grayscale grayscaleInverted : List Detection) :
    OcrResponse :=
  let easyocr_original := ocr_with_easyocr orig darkBackground inverted
  let all_results := easyocr_original ++
    (match shortCircuitOf easyocr_original with
     | some _ => []
     | none => ocr_with_preprocess_easyocr adaptive otsu grayscale grayscaleInverted)
  if all_results = [] then .noText
  else
    match shortCircuitOf easyocr_original with
    | some b => .found b
    | none => selectScored all_results

/-- Internal-space detector: a space surviving `str.strip()` is neither
leading nor trailing, hence internal. -/
def has_internal_space (l : Str) : Bool := ' ' ∈ pyStrip l

/-- Adjacent pair of whitespace characters somewhere in the string. -/
def hasWsPair : Str → Bool
  | [] => false
  | [_] => false
  | a :: b :: r => (isSpaceChar a ∧ isSpaceChar b) ∨ hasWsPair (b :: r)

/-- Sample candidate whose transcript repeats one word three times. -/
def xCand : Candidate :=
  { text := "x x x".toList, length := 5, config := "original_easyocr".toList,
    engine := "easyocr".toList, confidence := 1/2, segments := [],
    coordinate_space := "original".toList }

/-- Sample segment A of the Phase-1 chaining scenario: y-range 0..10. -/
def chainA : Segment := ⟨"A".toList, [(0,0),(10,0),(10,10),(0,10)], 1/2⟩

/-- Sample segment B of the Phase-1 chaining scenario: y-range 0..22,
horizontally adjacent to A. -/
def chainB : Segment := ⟨"B".toList, [(12,0),(20,0),(20,22),(12,22)], 1/2⟩

/-- Sample segment C of the Phase-1 chaining scenario: y-range 12..24,
horizontally adjacent to B. -/
def chainC : Segment := ⟨"C".toList, [(22,12),(30,12),(30,24),(22,24)], 1/2⟩

/-- Sample segment sharing its bbox with `dupB` but reading A. -/
def dupA : Segment := ⟨"A".toList, [(0,0),(10,0),(10,10),(0,10)], 1/2⟩

/-- Sample segment sharing its bbox with `dupA` but reading B. -/
def dupB : Segment := ⟨"B".toList, [(0,0),(10,0),(10,10),(0,10)], 1/2⟩

/-- Sample high-confidence detection used to exercise the endpoint. -/
def sampleDet : Detection := ⟨[(0,0),(5,0),(5,2),(0,2)], "Hello there".toList, 24/25⟩

/-- Sample below-floor detection. -/
def lowDet : Detection := ⟨[(0,0),(1,0),(1,1),(0,1)], "hi".toList, 1/20⟩

/-- Candidate the original pass produces on `sampleDet`. -/
def sampleCand : Candidate :=
  { text := "Hello there".toList, length := 11,
    config := "original_easyocr".toList, engine := "easyocr".toList,
    confidence := 24/25,
    segments := [⟨"Hello there".toList, [(0,0),(5,0),(5,2),(0,2)], 24/25⟩],
    coordinate_space := "original".toList }

/-! ## Theorems -/

theorem bumpWords_foldl (ws : List Str) (m : Str → ℕ) (k : Str) :
    (ws.foldl (fun m w => bumpWord m (pyLower w)) m) k
      = m k + (ws.map pyLower).count k := by
  induction ws generalizing m with
  | nil => simp
  | cons w rest ih =>
    simp only [List.foldl_cons, List.map_cons, ih, List.count_cons]
    unfold bumpWord
    by_cases h : k = pyLower w
    · subst h
      simp
      omega
    · simp [h, Ne.symm h]

theorem buildWordFreq_foldl (rs : List Candidate) (m : Str → ℕ) (k : Str) :
    (rs.foldl addCandidateWords m) k
      = m k + (rs.map fun r => ((pyWords r.text).map pyLower).count k).sum := by
  induction rs generalizing m with
  | nil => simp
  | cons r rest ih =>
    simp only [List.foldl_cons, List.map_cons, List.sum_cons, ih, addCandidateWords,
      bumpWords_foldl]
    omega

/-- C3 (amended): the word-frequency map of the scoring stage counts
every occurrence of a lower-cased word across all candidates, so one
candidate contributes once per occurrence, not once per candidate. -/
theorem C3_wordfreq_counts_occurrences (rs : List Candidate) (key : Str) :
    buildWordFreq rs key
      = (rs.map fun r => ((pyWords r.text).map pyLower).count key).sum := by
  simpa using buildWordFreq_foldl rs (fun _ => 0) key

/-- C3 (counterexample): a candidate whose transcript reads the word x
three times drives the frequency of x to 3, not to the number of
candidates containing x, which is 1. -/
theorem C3_counterexample :
    buildWordFreq [xCand] "x".toList
      ≠ ([xCand].filter fun r => "x".toList ∈ (pyWords r.text).map pyLower).length := by
  decide

theorem collapseGo_true_head (l : Str) :
    ∀ c, (collapseGo true l).head? = some c → ¬ isSpaceChar c := by
  induction l with
  | nil => intro c h; simp [collapseGo] at h
  | cons a r ih =>
    intro c h
    by_cases ha : isSpaceChar a
    · rw [collapseGo, if_pos ha, if_pos rfl] at h
      exact ih c h
    · rw [collapseGo, if_neg ha] at h
      simp at h
      subst h
      simp [ha]

theorem hasWsPair_cons_of_head (c : Char) (l : Str) (hc : ¬ isSpaceChar c = true)
    (hl : hasWsPair l = false) : hasWsPair (c :: l) = false := by
  cases l with
  | nil => rfl
  | cons b r =>
    unfold hasWsPair
    simp only [Bool.decide_or, Bool.or_eq_false_iff, decide_eq_false_iff_not]
    constructor
    · intro hand
      exact hc (by simpa using hand.1)
    · simpa using hl

theorem hasWsPair_collapseGo (l : Str) : ∀ b, hasWsPair (collapseGo b l) = false := by
  induction l with
  | nil => intro b; simp [collapseGo, hasWsPair]
  | cons a r ih =>
    intro b
    by_cases ha : isSpaceChar a
    · cases b with
      | true => rw [collapseGo, if_pos ha, if_pos rfl]; exact ih true
      | false =>
        rw [collapseGo, if_pos ha, if_neg (by simp)]
        cases hh : (collapseGo true r).head? with
        | none =>
          have : collapseGo true r = [] := by
            cases hcl : collapseGo true r
            · rfl
            · rw [hcl] at hh; simp at hh
          rw [this]
          rfl
        | some c =>
          have hc := collapseGo_true_head r c hh
          cases hcl : collapseGo true r with
          | nil => rfl
          | cons x xs =>
            rw [hcl] at hh
            simp at hh
            subst hh
            unfold hasWsPair
            simp only [Bool.decide_or, Bool.or_eq_false_iff, decide_eq_false_iff_not]
            refine ⟨fun hand => hc (by simpa using hand.2), ?_⟩
            have := ih true
            rw [hcl] at this
            simpa using this
    · rw [collapseGo, if_neg ha]
      exact hasWsPair_cons_of_head a _ (by simpa using ha) (ih false)

/-- C9 (amended): the normalizer collapses whitespace runs to single
spaces but performs no length-based space removal: its result can be
shorter than 10 characters and still hold an internal space, and the
short over-segmented input he-llo is returned unchanged. -/
theorem C9_no_short_string_space_collapse :
    (∀ s : Str, hasWsPair (collapse_whitespace s) = false)
      ∧ clean_ocr_text "he llo".toList = "he llo".toList
      ∧ (clean_ocr_text "he llo".toList).length < 10
      ∧ has_internal_space (clean_ocr_text "he llo".toList) = true := by
  refine ⟨fun s => hasWsPair_collapseGo s false, ?_, ?_, ?_⟩ <;> decide

/-- C9 (counterexample): the claim that short normalizer outputs never
contain an internal space fails on the input he-llo, whose cleaned
form has length 6 and keeps its internal space. -/
theorem C9_counterexample :
    ¬ ∀ s : Str, (clean_ocr_text s).length < 10 →
      has_internal_space (clean_ocr_text s) = false := by
  intro h
  have := h "he llo".toList (by decide)
  revert this
  decide

/-- C6 (counterexample): the text normalizer is not idempotent.  On the
input lt-space-lt-a, the first pass strips only the outermost artifact
and line-stripping then exposes a new leading artifact, which a second
pass removes. -/
theorem C6_counterexample :
    clean_ocr_text (clean_ocr_text "< <a".toList) ≠ clean_ocr_text "< <a".toList := by
  decide

theorem insertLe_perm (le : α → α → Bool) (a : α) (l : List α) :
    (insertLe le a l).Perm (a :: l) := by
  induction l with
  | nil => simp [insertLe]
  | cons b t ih =>
    unfold insertLe
    by_cases h : le b a
    · rw [if_pos h]
      exact (ih.cons b).trans (List.Perm.swap a b t)
    · rw [if_neg h]

theorem pySort_foldl_perm (le : α → α → Bool) (l : List α) :
    ∀ acc : List α, (l.foldl (fun acc x => insertLe le x acc) acc).Perm (acc ++ l) := by
  induction l with
  | nil => intro acc; simp
  | cons x t ih =>
    intro acc
    simp only [List.foldl_cons]
    refine (ih (insertLe le x acc)).trans ?_
    refine (((insertLe_perm le x acc).append_right t).trans ?_)
    simpa using List.perm_middle.symm

theorem pySort_perm (le : α → α → Bool) (l : List α) : (pySort le l).Perm l := by
  simpa using pySort_foldl_perm le l []

theorem insertLe_sorted (le : α → α → Bool)
    (htot : ∀ a b, le a b ∨ le b a)
    (htrans : ∀ a b c, le a b → le b c → le a c)
    (a : α) (l : List α) (h : l.Sorted fun x y => le x y) :
    (insertLe le a l).Sorted fun x y => le x y := by
  induction l with
  | nil => simp [insertLe]
  | cons b t ih =>
    rw [List.sorted_cons] at h
    unfold insertLe
    by_cases hba : le b a
    · rw [if_pos hba]
      rw [List.sorted_cons]
      refine ⟨?_, ih h.2⟩
      intro x hx
      have hx' := (insertLe_perm le a t).subset hx
      rcases List.mem_cons.mp hx' with rfl | hxt
      · exact hba
      · exact h.1 x hxt
    · rw [if_neg hba]
      have hab : le a b := (htot a b).resolve_right (by simpa using hba)
      rw [List.sorted_cons]
      refine ⟨?_, List.sorted_cons.mpr h⟩
      intro x hx
      rcases List.mem_cons.mp hx with rfl | hxt
      · exact hab
      · exact htrans a b x hab (h.1 x hxt)

theorem pySort_sorted (le : α → α → Bool)
    (htot : ∀ a b, le a b ∨ le b a)
    (htrans : ∀ a b c, le a b → le b c → le a c)
    (l : List α) : (pySort le l).Sorted fun x y => le x y := by
  suffices h : ∀ acc : List α, acc.Sorted (fun x y => le x y) →
      (l.foldl (fun acc x => insertLe le x acc) acc).Sorted fun x y => le x y by
    exact h [] (by simp)
  induction l with
  | nil => intro acc hacc; simpa using hacc
  | cons x t ih =>
    intro acc hacc
    simp only [List.foldl_cons]
    exact ih _ (insertLe_sorted le htot htrans x acc hacc)

theorem sorted_perm_eq (le : α → α → Bool) :
    ∀ (l₁ l₂ : List α),
      (∀ a b, a ∈ l₁ → b ∈ l₁ → le a b → le b a → a = b) →
      l₁.Perm l₂ →
      l₁.Sorted (fun x y => le x y) → l₂.Sorted (fun x y => le x y) →
      l₁ = l₂ := by
  intro l₁
  induction l₁ with
  | nil => intro l₂ _ hp _ _; simpa using hp.nil_eq
  | cons a t₁ ih =>
    intro l₂ anti hp h₁ h₂
    cases l₂ with
    | nil => exact absurd hp.symm.nil_eq (by simp)
    | cons b t₂ =>
      rw [List.sorted_cons] at h₁ h₂
      by_cases hab : a = b
      · subst hab
        have ht := hp.cons_inv
        have := ih t₂
          (fun x y hx hy => anti x y (List.mem_cons_of_mem _ hx) (List.mem_cons_of_mem _ hy))
          ht h₁.2 h₂.2
        rw [this]
      · exfalso
        have ha2 : a ∈ b :: t₂ := hp.subset (List.mem_cons_self a t₁)
        have hb1 : b ∈ a :: t₁ := hp.symm.subset (List.mem_cons_self b t₂)
        have hat2 : a ∈ t₂ := (List.mem_cons.mp ha2).resolve_left hab
        have hbt1 : b ∈ t₁ := (List.mem_cons.mp hb1).resolve_left (fun h => hab h.symm)
        have h1 : le a b := h₁.1 b hbt1
        have h2 : le b a := h₂.1 a hat2
        exact hab (anti a b (List.mem_cons_self a t₁) hb1 h1 h2)

theorem pySort_eq_of_perm (le : α → α → Bool)
    (htot : ∀ a b, le a b ∨ le b a)
    (htrans : ∀ a b c, le a b → le b c → le a c)
    (l₁ l₂ : List α)
    (anti : ∀ a b, a ∈ l₁ → b ∈ l₁ → le a b → le b a → a = b)
    (hp : l₁.Perm l₂) : pySort le l₁ = pySort le l₂ := by
  refine sorted_perm_eq le _ _ ?_ ?_ ?_ ?_
  · intro a b ha hb
    exact anti a b ((pySort_perm le l₁).subset ha) ((pySort_perm le l₁).subset hb)
  · exact (pySort_perm le l₁).trans (hp.trans (pySort_perm le l₂).symm)
  · exact pySort_sorted le htot htrans l₁
  · exact pySort_sorted le htot htrans l₂

theorem pyMaxBy_mem (f : α → ℚ) (a : α) (l : List α) :
    pyMaxBy f a l ∈ a :: l := by
  induction l generalizing a with
  | nil => simp [pyMaxBy]
  | cons x t ih =>
    unfold pyMaxBy
    simp only [List.foldl_cons]
    have := ih (if f a < f x then x else a)
    unfold pyMaxBy at this
    rcases List.mem_cons.mp this with h | h
    · rw [h]
      by_cases hc : f a < f x
      · simp [hc]
      · simp [hc]
    · simp [List.mem_cons_of_mem, h]

theorem pyMaxBy_le (f : α → ℚ) (a : α) (l : List α) :
    ∀ x ∈ a :: l, f x ≤ f (pyMaxBy f a l) := by
  induction l generalizing a with
  | nil =>
    intro x hx
    rcases List.mem_cons.mp hx with rfl | h
    · simp [pyMaxBy]
    · simp at h
  | cons y t ih =>
    intro x hx
    unfold pyMaxBy
    simp only [List.foldl_cons]
    have key : ∀ z ∈ (if f a < f y then y else a) :: t,
        f z ≤ f (pyMaxBy f (if f a < f y then y else a) t) := ih _
    unfold pyMaxBy at key
    rcases List.mem_cons.mp hx with rfl | hx'
    · refine le_trans ?_ (key _ (List.mem_cons_self _ _))
      by_cases hc : f x < f y
      · simp [hc]
        exact le_of_lt hc
      · simp [hc]
    · rcases List.mem_cons.mp hx' with rfl | hxt
      · refine le_trans ?_ (key _ (List.mem_cons_self _ _))
        by_cases hc : f a < f x
        · simp [hc]
        · simp [hc]
          exact le_of_not_lt hc
      · exact key x (List.mem_cons_of_mem _ hxt)

theorem mean_ge_floor (L : List ℚ) (m : ℚ) (hne : L ≠ [])
    (h : ∀ x ∈ L, m ≤ x) : m ≤ L.sum / ((max 1 L.length : ℕ) : ℚ) := by
  have hlen : 0 < L.length := List.length_pos.mpr hne
  have hmax : max 1 L.length = L.length := by omega
  rw [hmax, le_div_iff₀ (by exact_mod_cast hlen)]
  have hsum := List.card_nsmul_le_sum L m h
  rw [nsmul_eq_mul] at hsum
  calc m * (L.length : ℚ) = (L.length : ℚ) * m := by ring
    _ ≤ L.sum := hsum

theorem passCandidates_conf (config coord : Str) (dets : List Detection)
    (c : Candidate) (hc : c ∈ passCandidates config coord dets) :
    MIN_CONFIDENCE ≤ c.confidence := by
  by_cases hd : dets = []
  · simp [passCandidates, hd] at hc
  · simp only [passCandidates, if_neg hd] at hc
    split at hc
    · simp at hc
    · rename_i ht
      simp only [List.mem_singleton] at hc
      subst hc
      have hlm : (dets.filter fun d => MIN_CONFIDENCE ≤ d.conf).length
          = ((dets.filter fun d => MIN_CONFIDENCE ≤ d.conf).map Detection.conf).length := by
        simp
      simp only [hlm]
      refine mean_ge_floor _ _ ?_ ?_
      · intro hnil
        rw [List.map_eq_nil] at hnil
        rw [hnil] at ht
        exact ht (by decide)
      · intro x hx
        rcases List.mem_map.mp hx with ⟨d, hdm, rfl⟩
        exact of_decide_eq_true (List.mem_filter.mp hdm).2

theorem passCandidates_nil_of_low (config coord : Str) (dets : List Detection)
    (h : ∀ d ∈ dets, d.conf < MIN_CONFIDENCE) :
    passCandidates config coord dets = [] := by
  by_cases hd : dets = []
  · simp [passCandidates, hd]
  · have hfil : dets.filter (fun d => MIN_CONFIDENCE ≤ d.conf) = [] := by
      rw [List.filter_eq_nil_iff]
      intro d hdm
      simpa using not_le.mpr (h d hdm)
    have htext : clean_ocr_text (pyStrip (joinSpace
        ((dets.filter fun d => MIN_CONFIDENCE ≤ d.conf).map Detection.text))) = [] := by
      rw [hfil]
      decide
    simp [passCandidates, if_neg hd, htext]

theorem mem_easyocr_conf (orig : List Detection) (darkB : Bool)
    (inv : List Detection) (c : Candidate)
    (hc : c ∈ ocr_with_easyocr orig darkB inv) : MIN_CONFIDENCE ≤ c.confidence := by
  unfold ocr_with_easyocr at hc
  rcases List.mem_append.mp hc with h | h
  · exact passCandidates_conf _ _ _ _ h
  · cases darkB with
    | true => exact passCandidates_conf _ _ _ _ (by simpa using h)
    | false => simp at h

theorem mem_preprocess_conf (a o g gi : List Detection) (c : Candidate)
    (hc : c ∈ ocr_with_preprocess_easyocr a o g gi) : MIN_CONFIDENCE ≤ c.confidence := by
  unfold ocr_with_preprocess_easyocr at hc
  rcases List.mem_append.mp hc with h | h
  · rcases List.mem_append.mp h with h' | h'
    · rcases List.mem_append.mp h' with h'' | h''
      · exact passCandidates_conf _ _ _ _ h''
      · exact passCandidates_conf _ _ _ _ h''
    · exact passCandidates_conf _ _ _ _ h'
  · exact passCandidates_conf _ _ _ _ h

theorem selectScored_found (L : List Candidate) (c : Candidate)
    (h : selectScored L = .found c) : c ∈ L := by
  simp only [selectScored] at h
  cases hs : pySort (fun a b =>
      score (buildWordFreq L) b ≤ score (buildWordFreq L) a) L with
  | nil => rw [hs] at h; simp at h
  | cons b r =>
    rw [hs] at h
    simp only [OcrResponse.found.injEq] at h
    subst h
    exact (pySort_perm _ _).subset (hs ▸ List.mem_cons_self b r)

theorem shortCircuit_found (L : List Candidate) (b : Candidate)
    (h : shortCircuitOf L = some b) :
    b ∈ L ∧ HIGH_CONFIDENCE_THRESHOLD ≤ b.confidence := by
  unfold shortCircuitOf at h
  cases hL : L with
  | nil => rw [hL] at h; simp [firstMaxConf] at h
  | cons x r =>
    rw [hL] at h
    simp only [firstMaxConf] at h
    by_cases hcond : HIGH_CONFIDENCE_THRESHOLD ≤
        (pyMaxBy (fun x => x.confidence) x r).confidence
    · rw [if_pos hcond] at h
      simp only [Option.some.injEq] at h
      subst h
      exact ⟨pyMaxBy_mem _ x r, hcond⟩
    · rw [if_neg hcond] at h
      simp at h

theorem ocr_found_mem (orig : List Detection) (darkB : Bool)
    (inv a o g gi : List Detection) (c : Candidate)
    (hr : ocr orig darkB inv a o g gi = .found c) :
    c ∈ ocr_with_easyocr orig darkB inv ++ ocr_with_preprocess_easyocr a o g gi := by
  simp only [ocr] at hr
  cases hsc : shortCircuitOf (ocr_with_easyocr orig darkB inv) with
  | some b =>
    rw [hsc] at hr
    split at hr
    · exact absurd hr (by simp)
    · simp only [OcrResponse.found.injEq] at hr
      subst hr
      exact List.mem_append_left _ (shortCircuit_found _ _ hsc).1
  | none =>
    rw [hsc] at hr
    split at hr
    · exact absurd hr (by simp)
    · exact selectScored_found _ _ hr

/-- C1: every candidate any pass emits has confidence at least the
floor `MIN_CONFIDENCE` (it is a mean of filtered detections); hence
any selected candidate of the endpoint satisfies the floor; and when
every detection of every pass is below the floor, the endpoint
returns the empty-result sentinel instead of low-confidence text. -/
theorem C1_confidence_floor :
    (∀ (config coord : Str) (dets : List Detection) (c : Candidate),
      c ∈ passCandidates config coord dets → MIN_CONFIDENCE ≤ c.confidence)
    ∧ (∀ (orig : List Detection) (darkB : Bool) (inv a o g gi : List Detection)
        (c : Candidate), ocr orig darkB inv a o g gi = .found c →
          MIN_CONFIDENCE ≤ c.confidence)
    ∧ (∀ (orig : List Detection) (darkB : Bool) (inv a o g gi : List Detection),
        (∀ d ∈ orig ++ inv ++ a ++ o ++ g ++ gi, d.conf < MIN_CONFIDENCE) →
        ocr orig darkB inv a o g gi = .noText) := by
  refine ⟨passCandidates_conf, ?_, ?_⟩
  · intro orig darkB inv a o g gi c hr
    rcases List.mem_append.mp (ocr_found_mem orig darkB inv a o g gi c hr) with h | h
    · exact mem_easyocr_conf orig darkB inv c h
    · exact mem_preprocess_conf a o g gi c h
  · intro orig darkB inv a o g gi h
    have h1 : ocr_with_easyocr orig darkB inv = [] := by
      unfold ocr_with_easyocr
      rw [passCandidates_nil_of_low _ _ orig fun d hd => h d (by simp [hd])]
      cases darkB with
      | true =>
        rw [passCandidates_nil_of_low _ _ inv fun d hd => h d (by simp [hd])]
        simp
      | false => simp
    have h2 : ocr_with_preprocess_easyocr a o g gi = [] := by
      unfold ocr_with_preprocess_easyocr
      rw [passCandidates_nil_of_low _ _ a fun d hd => h d (by simp [hd]),
        passCandidates_nil_of_low _ _ o fun d hd => h d (by simp [hd]),
        passCandidates_nil_of_low _ _ g fun d hd => h d (by simp [hd]),
        passCandidates_nil_of_low _ _ gi fun d hd => h d (by simp [hd])]
      simp
    simp [ocr, h1, h2, shortCircuitOf, firstMaxConf, selectScored, pySort]

/-- C2: a candidate of the non-preprocessed passes with confidence at
or above the high-confidence threshold short-circuits the selection:
the first maximum-confidence candidate of those passes is returned,
every candidate of those passes has at most its confidence, and the
response does not depend on any preprocessing pass. -/
theorem C2_short_circuit (orig : List Detection) (darkB : Bool)
    (inv : List Detection) (c₀ : Candidate)
    (hc : c₀ ∈ ocr_with_easyocr orig darkB inv)
    (hconf : HIGH_CONFIDENCE_THRESHOLD ≤ c₀.confidence) :
    ∃ b : Candidate, firstMaxConf (ocr_with_easyocr orig darkB inv) = some b
      ∧ b ∈ ocr_with_easyocr orig darkB inv
      ∧ (∀ c ∈ ocr_with_easyocr orig darkB inv, c.confidence ≤ b.confidence)
      ∧ ∀ adaptive otsu grayscale grayscaleInverted : List Detection,
          ocr orig darkB inv adaptive otsu grayscale grayscaleInverted = .found b := by
  cases hL : ocr_with_easyocr orig darkB inv with
  | nil => rw [hL] at hc; simp at hc
  | cons x r =>
    have hc' : c₀ ∈ x :: r := hL ▸ hc
    have hbig : HIGH_CONFIDENCE_THRESHOLD ≤
        (pyMaxBy (fun x => x.confidence) x r).confidence :=
      le_trans hconf (pyMaxBy_le _ x r c₀ hc')
    refine ⟨pyMaxBy (fun x => x.confidence) x r, ?_, ?_, ?_, ?_⟩
    · simp [firstMaxConf]
    · exact pyMaxBy_mem _ x r
    · intro c hcm
      exact pyMaxBy_le _ x r c hcm
    · intro a o g gi
      have hsc : shortCircuitOf (x :: r)
          = some (pyMaxBy (fun x => x.confidence) x r) := by
        simp only [shortCircuitOf, firstMaxConf]
        rw [if_pos hbig]
      simp only [ocr, hL, hsc]
      simp

theorem spaceClass (c : Char) : isSpaceChar c = true ↔ classOf c = .space := by
  unfold classOf
  by_cases h : isSpaceChar c
  · simp [h]
  · simp only [h]
    constructor
    · intro hc
      exact absurd hc (by simp)
    · intro hc
      by_cases he : is_english_alnum c
      · simp [he] at hc
      · by_cases hch : is_chinese_char c
        · simp [he, hch] at hc
        · simp [he, hch] at hc

theorem lookup_mem {ps : List (Char × Char)} {a b : Char}
    (h : ps.lookup a = some b) : (a, b) ∈ ps := by
  induction ps with
  | nil => simp [List.lookup] at h
  | cons p t ih =>
    rw [List.lookup] at h
    cases hb : a == p.1 with
    | true =>
      rw [hb] at h
      simp only [Option.some.injEq] at h
      have ha : a = p.1 := by simpa using hb
      subst ha
      subst h
      simp
    | false =>
      rw [hb] at h
      exact List.mem_cons_of_mem _ (ih h)

theorem tableGet_class {t : List (Char × Char)}
    (ht : ∀ p ∈ t, classOf p.1 = .other ∧ classOf p.2 = .other) (c : Char) :
    classOf (tableGet t c) = classOf c := by
  unfold tableGet
  cases h : t.lookup c with
  | none => rfl
  | some v =>
    have hm := lookup_mem h
    have := ht (c, v) hm
    rw [this.2, this.1]

theorem tables_other :
    (∀ p ∈ CHINESE_TO_ENGLISH_PUNCT, classOf p.1 = .other ∧ classOf p.2 = .other)
      ∧ ∀ p ∈ ENGLISH_TO_CHINESE_PUNCT, classOf p.1 = .other ∧ classOf p.2 = .other := by
  decide

theorem convertPunct_class (c : Char) (f : Bool × Bool) :
    classOf (convertPunct c f) = classOf c := by
  unfold convertPunct
  split
  · exact tableGet_class tables_other.1 c
  · split
    · exact tableGet_class tables_other.2 c
    · rfl

theorem npConv_class (c : Char) (f : Bool × Bool) :
    classOf (npConv c f) = classOf c := by
  unfold npConv
  split
  · rfl
  · exact convertPunct_class c f

theorem sigFwd_classMap (l : Str) : sigFwd l = sigFwdC (classMap l) := by
  induction l with
  | nil => rfl
  | cons c r ih =>
    simp only [sigFwd, classMap, List.map_cons, sigFwdC]
    by_cases h : isSpaceChar c
    · rw [if_pos h, if_pos ((spaceClass c).mp h)]
      simpa [classMap] using ih
    · rw [if_neg h, if_neg fun hc => h ((spaceClass c).mpr hc)]

theorem sigLeft_classMap (cs : Str) : ∀ i, sigLeft cs i = sigLeftC (classMap cs) i := by
  intro i
  induction i with
  | zero => rfl
  | succ j ih =>
    simp only [sigLeft, sigLeftC, classMap, List.get?_map]
    cases h : cs.get? j with
    | none => simp
    | some c =>
      simp only [Option.map_some']
      by_cases hs : isSpaceChar c
      · rw [if_pos hs, if_pos ((spaceClass c).mp hs)]
        simpa [classMap] using ih
      · rw [if_neg hs, if_neg fun hc => hs ((spaceClass c).mpr hc)]

theorem sigRight_classMap (cs : Str) (j : Nat) :
    sigRight cs j = sigFwdC ((classMap cs).drop j) := by
  unfold sigRight
  rw [sigFwd_classMap]
  congr 1
  simp [classMap, List.map_drop]

theorem context_flags_classMap (cs : Str) (i : Nat) :
    context_flags cs i = context_flagsC (classMap cs) i := by
  unfold context_flags context_flagsC
  rw [sigLeft_classMap, sigRight_classMap]

theorem set_get_self {α : Type} (l : List α) :
    ∀ (i : Nat) (a : α), l.get? i = some a → l.set i a = l := by
  induction l with
  | nil => intro i a h; simp at h
  | cons x t ih =>
    intro i a h
    cases i with
    | zero =>
      simp only [List.get?] at h
      simp only [Option.some.injEq] at h
      subst h
      simp
    | succ j =>
      simp only [List.get?] at h
      simp [ih j a h]

theorem npStep_length (cs : Str) (i : Nat) : (npStep cs i).length = cs.length := by
  unfold npStep
  cases h : cs.get? i with
  | none => simp
  | some c =>
    dsimp only []
    split
    · rfl
    · simp

theorem npStep_get_ne (cs : Str) (i j : Nat) (hij : j ≠ i) :
    (npStep cs i).get? j = cs.get? j := by
  unfold npStep
  cases h : cs.get? i with
  | none => simp
  | some c =>
    dsimp only []
    split
    · rfl
    · exact List.get?_set_ne _ _ fun he => hij he.symm

theorem npStep_get_eq (cs : Str) (i : Nat) :
    (npStep cs i).get? i
      = (cs.get? i).map fun c => npConv c (context_flags cs i) := by
  unfold npStep
  cases h : cs.get? i with
  | none =>
    dsimp only []
    rw [h]
    rfl
  | some c =>
    dsimp only []
    split
    · rename_i hmem
      rw [h]
      simp only [Option.map_some']
      unfold npConv
      rw [if_pos hmem]
    · rename_i hmem
      have hlt : i < cs.length := by
        by_contra hge
        rw [List.get?_eq_none.mpr (by omega)] at h
        exact absurd h (by simp)
      rw [List.get?_set_eq_of_lt _ hlt]
      simp only [Option.map_some']
      unfold npConv
      rw [if_neg hmem]

theorem npStep_classMap (cs : Str) (i : Nat) : classMap (npStep cs i) = classMap cs := by
  apply List.ext
  intro n
  simp only [classMap, List.get?_map]
  by_cases hn : n = i
  · subst hn
    rw [npStep_get_eq]
    cases h : cs.get? n with
    | none => rfl
    | some c => simp [npConv_class]
  · rw [npStep_get_ne cs i n hn]

theorem npGo_get : ∀ (fuel : Nat) (cs : Str) (i : Nat), cs.length - i ≤ fuel →
    ∀ j, (npGo fuel cs i).get? j
      = if j < i then cs.get? j
        else (cs.get? j).map fun c => npConv c (context_flagsC (classMap cs) j) := by
  intro fuel
  induction fuel with
  | zero =>
    intro cs i hf j
    simp only [npGo]
    by_cases hj : j < i
    · rw [if_pos hj]
    · rw [if_neg hj]
      have hn : cs.get? j = none := List.get?_eq_none.mpr (by omega)
      rw [hn]
      rfl
  | succ fuel ih =>
    intro cs i hf j
    simp only [npGo]
    by_cases hi : i < cs.length
    · rw [if_pos hi]
      have hlen := npStep_length cs i
      have hcm := npStep_classMap cs i
      rw [ih (npStep cs i) (i + 1) (by omega) j]
      by_cases hj : j < i + 1
      · rw [if_pos hj]
        by_cases hji : j < i
        · rw [if_pos hji]
          exact npStep_get_ne cs i j (by omega)
        · have hjeq : j = i := by omega
          subst hjeq
          rw [if_neg hji, npStep_get_eq, context_flags_classMap]
      · rw [if_neg hj, if_neg (by omega), npStep_get_ne cs i j (by omega), hcm]
    · rw [if_neg hi]
      by_cases hj : j < i
      · rw [if_pos hj]
      · rw [if_neg hj]
        have hn : cs.get? j = none := List.get?_eq_none.mpr (by omega)
        rw [hn]
        rfl

theorem norm_get (cs : Str) (j : Nat) :
    (normalize_punctuation_by_language cs).get? j
      = (cs.get? j).map fun c => npConv c (context_flagsC (classMap cs) j) := by
  unfold normalize_punctuation_by_language
  by_cases hcs : cs = []
  · subst hcs
    simp
  · rw [if_neg hcs, npGo_get cs.length cs 0 (by omega) j, if_neg (by omega)]

theorem norm_classMap (cs : Str) :
    classMap (normalize_punctuation_by_language cs) = classMap cs := by
  apply List.ext
  intro n
  simp only [classMap, List.get?_map]
  rw [norm_get]
  cases cs.get? n with
  | none => rfl
  | some c => simp [npConv_class]

theorem tableGet_of_not_mem (t : List (Char × Char)) (c : Char)
    (h : ¬ tableMem t c = true) : tableGet t c = c := by
  unfold tableMem at h
  unfold tableGet
  cases hl : t.lookup c with
  | none => rfl
  | some v => rw [hl] at h; simp at h

theorem c2e_image : ∀ p ∈ CHINESE_TO_ENGLISH_PUNCT,
    tableMem ENGLISH_TO_CHINESE_PUNCT p.2 = true
      ∧ tableGet CHINESE_TO_ENGLISH_PUNCT p.2 = p.2 := by
  decide

theorem e2c_image : ∀ p ∈ ENGLISH_TO_CHINESE_PUNCT,
    tableMem CHINESE_TO_ENGLISH_PUNCT p.2 = true
      ∧ tableGet ENGLISH_TO_CHINESE_PUNCT p.2 = p.2 := by
  decide

theorem npConv_idem (c : Char) (f : Bool × Bool) :
    npConv (npConv c f) f = npConv c f := by
  by_cases hmem : ¬ tableMem CHINESE_TO_ENGLISH_PUNCT c = true
      ∧ ¬ tableMem ENGLISH_TO_CHINESE_PUNCT c = true
  · have hin : npConv c f = c := by rw [npConv, if_pos hmem]
    rw [hin, hin]
  · have hin : npConv c f = convertPunct c f := by rw [npConv, if_neg hmem]
    rw [hin]
    obtain ⟨b1, b2⟩ := f
    by_cases h1 : (b1 = true ∧ ¬ b2 = true)
    · have hcv : convertPunct c (b1, b2) = tableGet CHINESE_TO_ENGLISH_PUNCT c := by
        rw [convertPunct, if_pos h1]
      rw [hcv]
      cases hl : CHINESE_TO_ENGLISH_PUNCT.lookup c with
      | some v =>
        have himg := c2e_image (c, v) (lookup_mem hl)
        have hv : tableGet CHINESE_TO_ENGLISH_PUNCT c = v := by
          unfold tableGet
          rw [hl]
        rw [hv, npConv, if_neg (by simp [himg.1]), convertPunct, if_pos h1, himg.2]
      | none =>
        have hnm : ¬ tableMem CHINESE_TO_ENGLISH_PUNCT c = true := by
          unfold tableMem
          rw [hl]
          simp
        rw [tableGet_of_not_mem _ _ hnm, npConv, if_neg hmem, convertPunct,
          if_pos h1, tableGet_of_not_mem _ _ hnm]
    · by_cases h2 : (b2 = true ∧ ¬ b1 = true)
      · have hcv : convertPunct c (b1, b2) = tableGet ENGLISH_TO_CHINESE_PUNCT c := by
          rw [convertPunct, if_neg (by simpa using h1), if_pos h2]
        rw [hcv]
        cases hl : ENGLISH_TO_CHINESE_PUNCT.lookup c with
        | some v =>
          have himg := e2c_image (c, v) (lookup_mem hl)
          have hv : tableGet ENGLISH_TO_CHINESE_PUNCT c = v := by
            unfold tableGet
            rw [hl]
          rw [hv, npConv, if_neg (by simp [himg.1]), convertPunct,
            if_neg (by simpa using h1), if_pos h2, himg.2]
        | none =>
          have hnm : ¬ tableMem ENGLISH_TO_CHINESE_PUNCT c = true := by
            unfold tableMem
            rw [hl]
            simp
          rw [tableGet_of_not_mem _ _ hnm, npConv, if_neg hmem, convertPunct,
            if_neg (by simpa using h1), if_pos h2, tableGet_of_not_mem _ _ hnm]
      · have hcv : convertPunct c (b1, b2) = c := by
          rw [convertPunct, if_neg (by simpa using h1), if_neg (by simpa using h2)]
        rw [hcv, npConv, if_neg hmem, hcv]

theorem normalize_punctuation_idem (cs : Str) :
    normalize_punctuation_by_language (normalize_punctuation_by_language cs)
      = normalize_punctuation_by_language cs := by
  apply List.ext
  intro n
  rw [norm_get, norm_get, norm_classMap]
  cases h : cs.get? n with
  | none => rfl
  | some c => simp [npConv_idem]

/-- C7: punctuation normalization is local and context-directed.  For a
convertible character, English signals on both sides (the nearest
non-space neighbor each way is an ASCII alphanumeric, no CJK
neighbor) force the ASCII form; CJK signals on both sides force the
full-width form; mixed signals, or no signal on either side, leave
the character unchanged. -/
theorem C7_punctuation_context (cs : Str) (i : Nat) (c : Char)
    (hc : cs.get? i = some c)
    (hconv : tableMem CHINESE_TO_ENGLISH_PUNCT c = true
      ∨ tableMem ENGLISH_TO_CHINESE_PUNCT c = true) :
    (sigLeft cs i = .eng → sigRight cs (i + 1) = .eng →
      (normalize_punctuation_by_language cs).get? i
        = some (tableGet CHINESE_TO_ENGLISH_PUNCT c))
    ∧ (sigLeft cs i = .cjk → sigRight cs (i + 1) = .cjk →
      (normalize_punctuation_by_language cs).get? i
        = some (tableGet ENGLISH_TO_CHINESE_PUNCT c))
    ∧ ((sigLeft cs i = .eng ∧ sigRight cs (i + 1) = .cjk) ∨
        (sigLeft cs i = .cjk ∧ sigRight cs (i + 1) = .eng) ∨
        (sigLeft cs i = .none_ ∧ sigRight cs (i + 1) = .none_) →
      (normalize_punctuation_by_language cs).get? i = some c) := by
  have hbase : (normalize_punctuation_by_language cs).get? i
      = some (npConv c (context_flags cs i)) := by
    rw [norm_get, hc, ← context_flags_classMap]
    rfl
  have hnm : ¬ (¬ tableMem CHINESE_TO_ENGLISH_PUNCT c = true
      ∧ ¬ tableMem ENGLISH_TO_CHINESE_PUNCT c = true) := by
    rcases hconv with h | h
    · intro hcon
      exact hcon.1 h
    · intro hcon
      exact hcon.2 h
  refine ⟨?_, ?_, ?_⟩
  · intro hl hr
    rw [hbase, npConv, if_neg hnm]
    have hflags : context_flags cs i = (true, false) := by
      unfold context_flags
      rw [hl, hr]
      simp
    rw [hflags, convertPunct]
    simp
  · intro hl hr
    rw [hbase, npConv, if_neg hnm]
    have hflags : context_flags cs i = (false, true) := by
      unfold context_flags
      rw [hl, hr]
      simp
    rw [hflags, convertPunct]
    simp
  · intro hcase
    rw [hbase, npConv, if_neg hnm]
    rcases hcase with ⟨hl, hr⟩ | ⟨hl, hr⟩ | ⟨hl, hr⟩ <;>
    · have hflags : context_flags cs i = context_flags cs i := rfl
      unfold context_flags
      rw [hl, hr]
      simp [convertPunct]

/-- C7 witness: one concrete string per context case. -/
theorem C7_punctuation_context_witness :
    (normalize_punctuation_by_language "ab.cd".toList).get? 2
        = some (tableGet CHINESE_TO_ENGLISH_PUNCT '.')
      ∧ (normalize_punctuation_by_language "中.中".toList).get? 1
        = some (tableGet ENGLISH_TO_CHINESE_PUNCT '.')
      ∧ (normalize_punctuation_by_language "a.中".toList).get? 1 = some '.' :=
  ⟨(C7_punctuation_context "ab.cd".toList 2 '.' (by decide) (by decide)).1
      (by decide) (by decide),
   (C7_punctuation_context "中.中".toList 1 '.' (by decide) (by decide)).2.1
      (by decide) (by decide),
   (C7_punctuation_context "a.中".toList 1 '.' (by decide) (by decide)).2.2
      (Or.inl ⟨by decide, by decide⟩)⟩

theorem dropWhile_head_not (p : Char → Bool) (l : Str) :
    ∀ c, (l.dropWhile p).head? = some c → p c = false := by
  induction l with
  | nil => intro c h; simp at h
  | cons a r ih =>
    intro c h
    by_cases ha : p a
    · rw [List.dropWhile_cons, if_pos ha] at h
      exact ih c h
    · rw [List.dropWhile_cons, if_neg ha] at h
      simp only [List.head?_cons, Option.some.injEq] at h
      subst h
      simpa using ha

theorem dropWhile_eq_self_of_head (p : Char → Bool) (l : Str)
    (h : ∀ c, l.head? = some c → p c = false) : l.dropWhile p = l := by
  cases l with
  | nil => rfl
  | cons a r =>
    rw [List.dropWhile_cons, if_neg (by simpa using h a rfl)]

theorem stripBoth_head (p : Char → Bool) (l : Str) :
    ∀ c, (((l.dropWhile p).reverse.dropWhile p).reverse).head? = some c →
      p c = false := by
  intro c h
  have hpre : (((l.dropWhile p).reverse.dropWhile p).reverse) <+: l.dropWhile p := by
    have hsuf : ((l.dropWhile p).reverse.dropWhile p) <:+ (l.dropWhile p).reverse :=
      List.dropWhile_suffix p
    have := List.reverse_prefix.mpr hsuf
    simpa using this
  obtain ⟨t, ht⟩ := hpre
  refine dropWhile_head_not p l c ?_
  rw [← ht]
  cases hs : ((l.dropWhile p).reverse.dropWhile p).reverse with
  | nil => rw [hs] at h; simp at h
  | cons x xs =>
    rw [hs] at h
    simp only [List.head?_cons, Option.some.injEq] at h
    subst h
    simp

theorem stripBoth_getLast (p : Char → Bool) (l : Str) :
    ∀ c, (((l.dropWhile p).reverse.dropWhile p).reverse).getLast? = some c →
      p c = false := by
  intro c h
  rw [← List.head?_reverse, List.reverse_reverse] at h
  exact dropWhile_head_not p (l.dropWhile p).reverse c h

theorem stripBoth_idem (p : Char → Bool) (l : Str) :
    let f := fun s : Str => ((s.dropWhile p).reverse.dropWhile p).reverse
    f (f l) = f l := by
  intro f
  have h1 : (f l).dropWhile p = f l :=
    dropWhile_eq_self_of_head p (f l) (stripBoth_head p l)
  have h2 : (f l).reverse.dropWhile p = (f l).reverse := by
    refine dropWhile_eq_self_of_head p (f l).reverse ?_
    intro c hc
    rw [List.head?_reverse] at hc
    exact stripBoth_getLast p l c hc
  show ((((f l).dropWhile p).reverse.dropWhile p).reverse) = f l
  rw [h1, h2, List.reverse_reverse]

theorem pyStrip_idem (l : Str) : pyStrip (pyStrip l) = pyStrip l :=
  stripBoth_idem isSpaceChar l

theorem strip_edge_artifacts_idem (l : Str) :
    strip_edge_artifacts (strip_edge_artifacts l) = strip_edge_artifacts l :=
  stripBoth_idem isArtifactChar l

theorem pyStrip_eq_self_of (l : Str)
    (hh : ∀ c, l.head? = some c → isSpaceChar c = false)
    (hl : ∀ c, l.getLast? = some c → isSpaceChar c = false) : pyStrip l = l := by
  unfold pyStrip
  rw [dropWhile_eq_self_of_head _ _ hh]
  rw [dropWhile_eq_self_of_head _ _ (fun c hc => hl c (by rwa [List.head?_reverse] at hc))]
  exact List.reverse_reverse l

theorem collapseGo_true_eq_false (X : Str)
    (hx : ∀ c, X.head? = some c → isSpaceChar c = false) :
    collapseGo true X = collapseGo false X := by
  cases X with
  | nil => rfl
  | cons x xs =>
    have := hx x rfl
    rw [collapseGo, collapseGo, if_neg (by simpa using this),
      if_neg (by simpa using this)]

theorem collapse_idem_aux (l : Str) :
    collapseGo false (collapseGo true l) = collapseGo true l
      ∧ collapseGo false (collapseGo false l) = collapseGo false l := by
  induction l with
  | nil => exact ⟨rfl, rfl⟩
  | cons c r ih =>
    by_cases hc : isSpaceChar c
    · constructor
      · rw [collapseGo, if_pos hc, if_pos rfl]
        exact ih.1
      · rw [collapseGo, if_pos hc, if_neg (by simp)]
        have hX := collapseGo_true_eq_false (collapseGo true r)
          (fun x hx => by simpa using collapseGo_true_head r x hx)
        calc collapseGo false (' ' :: collapseGo true r)
            = ' ' :: collapseGo true (collapseGo true r) := by
              rw [collapseGo, if_pos (by decide), if_neg (by simp)]
          _ = ' ' :: collapseGo false (collapseGo true r) := by rw [hX]
          _ = ' ' :: collapseGo true r := by rw [ih.1]
    · constructor
      · rw [collapseGo, if_neg hc]
        rw [collapseGo, if_neg hc]
        rw [ih.2]
      · rw [collapseGo, if_neg hc]
        rw [collapseGo, if_neg hc]
        rw [ih.2]

theorem collapse_whitespace_idem (l : Str) :
    collapse_whitespace (collapse_whitespace l) = collapse_whitespace l :=
  (collapse_idem_aux l).2

theorem splitLinesNl_ne_nil (t : Str) : splitLinesNl t ≠ [] := by
  cases t with
  | nil => simp [splitLinesNl]
  | cons c r =>
    rw [splitLinesNl]
    by_cases hc : c = '\n'
    · rw [if_pos hc]
      simp
    · rw [if_neg hc]
      cases splitLinesNl r <;> simp

theorem splitLinesNl_no_newline (t : Str) :
    ∀ piece ∈ splitLinesNl t, '\n' ∉ piece := by
  induction t with
  | nil =>
    intro piece hp
    simp [splitLinesNl] at hp
    simp [hp]
  | cons c r ih =>
    intro piece hp
    rw [splitLinesNl] at hp
    by_cases hc : c = '\n'
    · rw [if_pos hc] at hp
      rcases List.mem_cons.mp hp with rfl | h
      · simp
      · exact ih piece h
    · rw [if_neg hc] at hp
      cases hs : splitLinesNl r with
      | nil => exact absurd hs (splitLinesNl_ne_nil r)
      | cons h0 t0 =>
        rw [hs] at hp
        rcases List.mem_cons.mp hp with rfl | h
        · intro hmem
          rcases List.mem_cons.mp hmem with heq | hmem'
          · exact hc heq.symm
          · exact ih h0 (hs ▸ List.mem_cons_self h0 t0) hmem'
        · exact ih piece (hs ▸ List.mem_cons_of_mem h0 h)

theorem splitLinesNl_of_no_newline (t : Str) (h : '\n' ∉ t) :
    splitLinesNl t = [t] := by
  induction t with
  | nil => rfl
  | cons c r ih =>
    rw [splitLinesNl, if_neg (by intro hc; exact h (hc ▸ List.mem_cons_self c r))]
    rw [ih fun hm => h (List.mem_cons_of_mem c hm)]

theorem mem_pyStrip_subset (l : Str) (c : Char) (h : c ∈ pyStrip l) : c ∈ l := by
  unfold pyStrip at h
  rw [List.mem_reverse] at h
  have h1 := (List.dropWhile_suffix (l := (l.dropWhile isSpaceChar).reverse)
    isSpaceChar).subset h
  rw [List.mem_reverse] at h1
  exact (List.dropWhile_suffix isSpaceChar).subset h1

theorem joinSep_mem (sep : Str) (L : List Str) (c : Char) :
    c ∈ joinSep sep L → (∃ l ∈ L, c ∈ l) ∨ c ∈ sep := by
  induction L with
  | nil => intro h; simp [joinSep] at h
  | cons x xs ih =>
    intro h
    cases xs with
    | nil =>
      rw [joinSep] at h
      exact Or.inl ⟨x, List.mem_cons_self _ _, h⟩
    | cons y t =>
      rw [joinSep] at h
      rcases List.mem_append.mp h with h1 | h1
      · rcases List.mem_append.mp h1 with h2 | h2
        · exact Or.inl ⟨x, List.mem_cons_self _ _, h2⟩
        · exact Or.inr h2
      · rcases ih h1 with ⟨l, hl, hcl⟩ | h2
        · exact Or.inl ⟨l, List.mem_cons_of_mem _ hl, hcl⟩
        · exact Or.inr h2

theorem joinSep_ne_nil (sep : Str) (y : Str) (t : List Str) (hy : y ≠ []) :
    joinSep sep (y :: t) ≠ [] := by
  cases t with
  | nil => simpa [joinSep] using hy
  | cons z t' =>
    rw [joinSep]
    simp [hy]

theorem joinSep_head (sep : Str) (l₀ : Str) (rest : List Str) (h : l₀ ≠ []) :
    (joinSep sep (l₀ :: rest)).head? = l₀.head? := by
  cases rest with
  | nil => rfl
  | cons y t =>
    rw [joinSep]
    cases l₀ with
    | nil => exact absurd rfl h
    | cons c cs => simp

theorem joinSep_getLast (sep : Str) :
    ∀ (L : List Str) (x : Str) (xs : List Str), L = x :: xs →
      (∀ l ∈ L, l ≠ []) → sep ≠ [] →
      ∃ w ∈ L, (joinSep sep L).getLast? = w.getLast? := by
  intro L
  induction L with
  | nil => intro x xs h; simp at h
  | cons a as ih =>
    intro x xs hL hne hsep
    cases as with
    | nil => exact ⟨a, List.mem_cons_self _ _, rfl⟩
    | cons b bs =>
      obtain ⟨w, hw, hwl⟩ := ih b bs rfl
        (fun l hl => hne l (List.mem_cons_of_mem _ hl)) hsep
      refine ⟨w, List.mem_cons_of_mem _ hw, ?_⟩
      rw [joinSep, List.append_assoc,
        List.getLast?_append_of_ne_nil _ ?_, List.getLast?_append_of_ne_nil _ ?_, hwl]
      · exact joinSep_ne_nil sep b bs (hne b (by simp))
      · intro hcon
        rcases List.append_eq_nil.mp hcon with ⟨h1, _⟩
        exact hsep h1

theorem drop_single_char_lines_idem (t : Str) :
    drop_single_char_lines (drop_single_char_lines t) = drop_single_char_lines t := by
  have hmem : ∀ l ∈ ((splitLinesNl t).map pyStrip).filter keepLine,
      keepLine l = true ∧ pyStrip l = l ∧ l ≠ [] ∧ '\n' ∉ l := by
    intro l hl
    have hk := (List.mem_filter.mp hl).2
    have hm := (List.mem_filter.mp hl).1
    rcases List.mem_map.mp hm with ⟨piece, hpm, rfl⟩
    refine ⟨hk, pyStrip_idem piece, ?_, ?_⟩
    · intro hnil
      rw [hnil] at hk
      exact absurd hk (by decide)
    · intro hmemn
      exact splitLinesNl_no_newline t piece hpm
        (mem_pyStrip_subset piece '\n' hmemn)
  unfold drop_single_char_lines
  cases hk : ((splitLinesNl t).map pyStrip).filter keepLine with
  | nil => simp [joinSep, splitLinesNl, pyStrip, keepLine]
  | cons l₀ rest =>
    have hprops := hk ▸ hmem
    have hNoNl : '\n' ∉ joinSep [' '] (l₀ :: rest) := by
      intro hmemn
      rcases joinSep_mem [' '] (l₀ :: rest) '\n' hmemn with ⟨l, hl, hcl⟩ | hsep
      · exact (hprops l hl).2.2.2 hcl
      · simp at hsep
    have hstrip : pyStrip (joinSep [' '] (l₀ :: rest)) = joinSep [' '] (l₀ :: rest) := by
      refine pyStrip_eq_self_of _ ?_ ?_
      · intro c hc
        rw [joinSep_head [' '] l₀ rest (hprops l₀ (by simp)).2.2.1] at hc
        have hfix := (hprops l₀ (by simp)).2.1
        rw [← hfix] at hc
        exact stripBoth_head isSpaceChar l₀ c hc
      · intro c hc
        obtain ⟨w, hw, hwl⟩ := joinSep_getLast [' '] (l₀ :: rest) l₀ rest rfl
          (fun l hl => (hprops l hl).2.2.1) (by simp)
        rw [hwl] at hc
        have hfix := (hprops w hw).2.1
        rw [← hfix] at hc
        exact stripBoth_getLast isSpaceChar w c hc
    have hkeep : keepLine (joinSep [' '] (l₀ :: rest)) = true := by
      cases rest with
      | nil => exact (hprops l₀ (by simp)).1
      | cons l₁ rest' =>
        unfold keepLine
        have h0 : l₀.length ≥ 1 :=
          List.length_pos.mpr (hprops l₀ (by simp)).2.2.1
        have h1 : (joinSep [' '] (l₁ :: rest')).length ≥ 1 := by
          refine List.length_pos.mpr (joinSep_ne_nil _ _ _ ?_)
          exact (hprops l₁ (by simp)).2.2.1
        rw [joinSep]
        simp only [List.length_append, List.length_cons, List.length_nil,
          decide_eq_true_eq]
        refine Or.inl ?_
        omega
    rw [splitLinesNl_of_no_newline _ hNoNl]
    simp only [List.map_cons, List.map_nil, hstrip]
    rw [List.filter_cons, if_pos (by simpa using hkeep)]
    rfl

/-- C6 (amended): every stage of the text normalizer except the
phrase/article-correction stage is idempotent — whitespace collapse,
edge-artifact strip, single-character-line drop, punctuation
normalization, and the final strip each map their own output to
itself.  The full `clean_ocr_text` pipeline is not idempotent (see
the counterexample). -/
theorem C6_stagewise_idempotent :
    (∀ s : Str, collapse_whitespace (collapse_whitespace s) = collapse_whitespace s)
    ∧ (∀ s : Str, strip_edge_artifacts (strip_edge_artifacts s)
        = strip_edge_artifacts s)
    ∧ (∀ s : Str, drop_single_char_lines (drop_single_char_lines s)
        = drop_single_char_lines s)
    ∧ (∀ s : Str, normalize_punctuation_by_language
        (normalize_punctuation_by_language s) = normalize_punctuation_by_language s)
    ∧ (∀ s : Str, pyStrip (pyStrip s) = pyStrip s) :=
  ⟨collapse_whitespace_idem, strip_edge_artifacts_idem, drop_single_char_lines_idem,
   normalize_punctuation_idem, pyStrip_idem⟩

theorem segKeyLe_total (a b : SegR) : segKeyLe a b ∨ segKeyLe b a := by
  unfold segKeyLe
  rcases lt_trichotomy a.2.y_min b.2.y_min with h | h | h
  · left; simp [h]
  · rcases le_total a.2.x_min b.2.x_min with hx | hx
    · left; simp [h, hx]
    · right; simp [h.symm, hx]
  · right; simp [h]

theorem segKeyLe_trans (a b c : SegR) (hab : segKeyLe a b) (hbc : segKeyLe b c) :
    segKeyLe a c := by
  unfold segKeyLe at *
  simp only [Bool.decide_or, Bool.or_eq_true, decide_eq_true_eq,
    Bool.and_eq_true, Bool.decide_and] at *
  rcases hab with h1 | ⟨h1, h1x⟩ <;> rcases hbc with h2 | ⟨h2, h2x⟩
  · exact Or.inl (lt_trans h1 h2)
  · exact Or.inl (h2 ▸ h1)
  · exact Or.inl (h1 ▸ h2)
  · exact Or.inr ⟨h1.trans h2, le_trans h1x h2x⟩

theorem clusterLe_total (a b : Cluster) :
    (a.rect.y_min ≤ b.rect.y_min) ∨ (b.rect.y_min ≤ a.rect.y_min) :=
  le_total _ _

theorem place_flatMap (cs : List Cluster) (s : SegR) :
    ((place cs s).flatMap Cluster.segs).Perm (s :: cs.flatMap Cluster.segs) := by
  induction cs with
  | nil => simp [place]
  | cons c cs' ih =>
    rw [place]
    by_cases hm : sameRowMatch s.2 c.rect
    · rw [if_pos hm]
      simp only [List.flatMap_cons, clusterAdd]
      have : (c.segs ++ [s]) ++ cs'.flatMap Cluster.segs
          = c.segs ++ s :: cs'.flatMap Cluster.segs := by simp
      rw [this]
      exact List.perm_middle
    · rw [if_neg hm]
      simp only [List.flatMap_cons]
      exact (ih.append_left c.segs).trans List.perm_middle

theorem phase1_foldl_flatMap (l : List SegR) :
    ∀ acc : List Cluster,
      ((l.foldl place acc).flatMap Cluster.segs).Perm
        (acc.flatMap Cluster.segs ++ l) := by
  induction l with
  | nil => intro acc; simp
  | cons s t ih =>
    intro acc
    simp only [List.foldl_cons]
    refine (ih (place acc s)).trans ?_
    refine ((place_flatMap acc s).append_right t).trans ?_
    simpa using List.perm_middle.symm

theorem phase1_flatMap (l : List SegR) :
    ((phase1 l).flatMap Cluster.segs).Perm l := by
  simpa using phase1_foldl_flatMap l []

theorem place_segs_ne_nil (cs : List Cluster) (s : SegR)
    (h : ∀ c ∈ cs, c.segs ≠ []) : ∀ c ∈ place cs s, c.segs ≠ [] := by
  induction cs with
  | nil =>
    intro c hc
    simp [place] at hc
    subst hc
    simp
  | cons c0 cs' ih =>
    intro c hc
    rw [place] at hc
    by_cases hm : sameRowMatch s.2 c0.rect
    · rw [if_pos hm] at hc
      rcases List.mem_cons.mp hc with rfl | hmem
      · simp [clusterAdd]
      · exact h c (List.mem_cons_of_mem _ hmem)
    · rw [if_neg hm] at hc
      rcases List.mem_cons.mp hc with rfl | hmem
      · exact h c (List.mem_cons_self _ _)
      · exact ih (fun d hd => h d (List.mem_cons_of_mem _ hd)) c hmem

theorem phase1_segs_ne_nil (l : List SegR) :
    ∀ c ∈ phase1 l, c.segs ≠ [] := by
  suffices h : ∀ acc : List Cluster, (∀ c ∈ acc, c.segs ≠ []) →
      ∀ c ∈ l.foldl place acc, c.segs ≠ [] by
    exact h [] (by simp)
  induction l with
  | nil => intro acc hacc; simpa using hacc
  | cons s t ih =>
    intro acc hacc
    simp only [List.foldl_cons]
    exact ih (place acc s) (place_segs_ne_nil acc s hacc)

theorem phase2_foldl_flatMap (l : List Cluster) :
    ∀ acc : List Cluster,
      ((l.foldl phase2Step acc).reverse).flatMap Cluster.segs
        = acc.reverse.flatMap Cluster.segs ++ l.flatMap Cluster.segs := by
  induction l with
  | nil => intro acc; simp
  | cons c t ih =>
    intro acc
    simp only [List.foldl_cons, ih (phase2Step acc c), List.flatMap_cons]
    cases acc with
    | nil => simp [phase2Step]
    | cons prev rest =>
      rw [phase2Step]
      by_cases hm : should_merge_vertical prev.rect c.rect
      · rw [if_pos hm]
        simp [mergeClusters]
      · rw [if_neg hm]
        simp

theorem phase2_flatMap (ls : List Cluster) :
    (phase2 ls).flatMap Cluster.segs = ls.flatMap Cluster.segs := by
  unfold phase2
  simpa using phase2_foldl_flatMap ls []

theorem phase2_foldl_segs_ne_nil (ls : List Cluster) :
    ∀ acc : List Cluster, (∀ c ∈ acc, c.segs ≠ []) → (∀ c ∈ ls, c.segs ≠ []) →
      ∀ c ∈ ls.foldl phase2Step acc, c.segs ≠ [] := by
  induction ls with
  | nil => intro acc hacc _; simpa using hacc
  | cons c0 t ih =>
    intro acc hacc hl
    simp only [List.foldl_cons]
    refine ih (phase2Step acc c0) ?_ fun c hc => hl c (List.mem_cons_of_mem _ hc)
    intro c hc
    cases acc with
    | nil =>
      simp only [phase2Step, List.mem_singleton] at hc
      subst hc
      exact hl c (List.mem_cons_self _ _)
    | cons prev rest =>
      rw [phase2Step] at hc
      by_cases hm : should_merge_vertical prev.rect c0.rect
      · rw [if_pos hm] at hc
        rcases List.mem_cons.mp hc with rfl | hmem
        · simp only [mergeClusters, ne_eq, List.append_eq_nil, not_and]
          intro hp
          exact absurd hp (hacc prev (List.mem_cons_self _ _))
        · exact hacc c (List.mem_cons_of_mem _ hmem)
      · rw [if_neg hm] at hc
        rcases List.mem_cons.mp hc with rfl | hmem
        · exact hl c (List.mem_cons_self _ _)
        · exact hacc c hmem

theorem phase2_segs_ne_nil (ls : List Cluster) (h : ∀ c ∈ ls, c.segs ≠ []) :
    ∀ c ∈ phase2 ls, c.segs ≠ [] := by
  intro c hc
  unfold phase2 at hc
  exact phase2_foldl_segs_ne_nil ls [] (by simp) h c (List.mem_reverse.mp hc)

theorem unionRect_y_min (a b : Rect) :
    (unionRect a b).y_min = min a.y_min b.y_min := rfl

theorem mergeClusters_y_min (prev curr : Cluster)
    (h : prev.rect.y_min ≤ curr.rect.y_min) :
    (mergeClusters prev curr).rect.y_min = prev.rect.y_min := by
  simp [mergeClusters, unionRect_y_min, min_eq_left h]

theorem phase2_fold_pairwise :
    ∀ (l : List Cluster) (acc : List Cluster),
      acc.Pairwise (fun a b => b.rect.y_min ≤ a.rect.y_min) →
      (∀ b ∈ acc, ∀ c ∈ l, b.rect.y_min ≤ c.rect.y_min) →
      l.Pairwise (fun a b => a.rect.y_min ≤ b.rect.y_min) →
      (l.foldl phase2Step acc).Pairwise fun a b => b.rect.y_min ≤ a.rect.y_min := by
  intro l
  induction l with
  | nil => intro acc hpw _ _; simpa using hpw
  | cons c t ih =>
    intro acc hpw hcross hsort
    rw [List.pairwise_cons] at hsort
    simp only [List.foldl_cons]
    refine ih (phase2Step acc c) ?_ ?_ hsort.2
    · cases acc with
      | nil => simp [phase2Step]
      | cons prev rest =>
        rw [List.pairwise_cons] at hpw
        rw [phase2Step]
        by_cases hm : should_merge_vertical prev.rect c.rect
        · rw [if_pos hm]
          have hpc : prev.rect.y_min ≤ c.rect.y_min :=
            hcross prev (List.mem_cons_self _ _) c (List.mem_cons_self _ _)
          rw [List.pairwise_cons]
          refine ⟨?_, hpw.2⟩
          intro b hb
          rw [mergeClusters_y_min prev c hpc]
          exact hpw.1 b hb
        · rw [if_neg hm]
          rw [List.pairwise_cons]
          refine ⟨?_, List.pairwise_cons.mpr hpw⟩
          intro b hb
          exact hcross b hb c (List.mem_cons_self _ _)
    · intro b hb d hd
      cases acc with
      | nil =>
        simp only [phase2Step, List.mem_singleton] at hb
        subst hb
        exact hsort.1 d hd
      | cons prev rest =>
        rw [phase2Step] at hb
        by_cases hm : should_merge_vertical prev.rect c.rect
        · rw [if_pos hm] at hb
          rcases List.mem_cons.mp hb with rfl | hmem
          · have hpc : prev.rect.y_min ≤ c.rect.y_min :=
              hcross prev (List.mem_cons_self _ _) c (List.mem_cons_self _ _)
            rw [mergeClusters_y_min prev c hpc]
            exact hcross prev (List.mem_cons_self _ _) d (List.mem_cons_of_mem _ hd)
          · exact hcross b (List.mem_cons_of_mem _ hmem) d (List.mem_cons_of_mem _ hd)
        · rw [if_neg hm] at hb
          rcases List.mem_cons.mp hb with rfl | hmem
          · exact hsort.1 d hd
          · exact hcross b hmem d (List.mem_cons_of_mem _ hd)

theorem phase2_pairwise (ls : List Cluster)
    (hs : ls.Pairwise fun a b => a.rect.y_min ≤ b.rect.y_min) :
    (phase2 ls).Pairwise fun a b => a.rect.y_min ≤ b.rect.y_min := by
  unfold phase2
  rw [List.pairwise_reverse]
  exact phase2_fold_pairwise ls [] (by simp) (by simp) hs

theorem pyStrip_eq_nil_iff (l : Str) :
    pyStrip l = [] ↔ ∀ c ∈ l, isSpaceChar c = true := by
  unfold pyStrip
  rw [List.reverse_eq_nil_iff, List.dropWhile_eq_nil_iff]
  constructor
  · intro h c hc
    have hsplit := List.takeWhile_append_dropWhile (p := isSpaceChar) (l := l)
    rw [← hsplit] at hc
    rcases List.mem_append.mp hc with h1 | h1
    · exact List.mem_takeWhile_imp h1
    · exact h c (List.mem_reverse.mpr h1)
  · intro h c hc
    refine h c ?_
    exact (List.dropWhile_suffix isSpaceChar).subset (List.mem_reverse.mp hc)

theorem pyStrip_head_not_space (l : Str) :
    ∀ c, (pyStrip l).head? = some c → isSpaceChar c = false :=
  stripBoth_head isSpaceChar l

theorem joinSep_mem_of (sep : Str) (L : List Str) (l : Str) (hl : l ∈ L)
    (c : Char) (hc : c ∈ l) : c ∈ joinSep sep L := by
  induction L with
  | nil => simp at hl
  | cons x xs ih =>
    cases xs with
    | nil =>
      rw [List.mem_singleton] at hl
      subst hl
      exact hc
    | cons y t =>
      rw [joinSep]
      rcases List.mem_cons.mp hl with rfl | hmem
      · exact List.mem_append_left _ (List.mem_append_left _ hc)
      · exact List.mem_append_right _ (ih hmem)

theorem joinRow_ne_nil (ts : List Str) (t : Str) (ht : t ∈ ts)
    (hne : pyStrip t ≠ []) : joinRow ts ≠ [] := by
  unfold joinRow
  intro hcon
  rw [pyStrip_eq_nil_iff] at hcon
  have hex : ∃ c ∈ t, ¬ isSpaceChar c = true := by
    by_contra hall
    push_neg at hall
    exact hne ((pyStrip_eq_nil_iff t).mpr (by simpa using hall))
  obtain ⟨c, hc, hcs⟩ := hex
  exact hcs (hcon c (joinSep_mem_of [' '] ts t ht c hc))

theorem rowsGo_facts (thr : ℚ) :
    ∀ (rest : List SegR) (acc curr : List Str) (y : ℚ),
      (∀ r ∈ acc, r ≠ [] ∧ ∃ x, r = pyStrip x) →
      (∀ t ∈ curr, pyStrip t ≠ []) →
      (∀ s ∈ rest, pyStrip s.1.text ≠ []) →
      (∀ r ∈ rowsGo thr acc curr y rest, r ≠ [] ∧ ∃ x, r = pyStrip x)
        ∧ ((acc ≠ [] ∨ curr ≠ [] ∨ rest ≠ []) → rowsGo thr acc curr y rest ≠ []) := by
  intro rest
  induction rest with
  | nil =>
    intro acc curr y hacc hcurr _
    rw [rowsGo]
    by_cases hc : curr = []
    · rw [if_pos hc]
      refine ⟨hacc, ?_⟩
      rintro (h | h | h)
      · exact h
      · exact absurd hc h
      · exact absurd rfl h
    · rw [if_neg hc]
      have hjr : joinRow curr ≠ [] := by
        cases curr with
        | nil => exact absurd rfl hc
        | cons t ts =>
          exact joinRow_ne_nil (t :: ts) t (List.mem_cons_self _ _)
            (hcurr t (List.mem_cons_self _ _))
      refine ⟨?_, by simp⟩
      intro r hr
      rcases List.mem_append.mp hr with h1 | h1
      · exact hacc r h1
      · rw [List.mem_singleton] at h1
        subst h1
        exact ⟨hjr, joinSep [' '] curr, rfl⟩
  | cons s rest' ih =>
    intro acc curr y hacc hcurr hrest
    rw [rowsGo]
    have hs0 : pyStrip s.1.text ≠ [] := hrest s (List.mem_cons_self _ _)
    have hrest' : ∀ p ∈ rest', pyStrip p.1.text ≠ [] :=
      fun p hp => hrest p (List.mem_cons_of_mem _ hp)
    by_cases hbr : |s.2.mid_y - y| > thr ∧ curr ≠ []
    · rw [if_pos hbr]
      have hjr : joinRow curr ≠ [] := by
        cases hcc : curr with
        | nil => exact absurd hcc hbr.2
        | cons t ts =>
          refine joinRow_ne_nil (t :: ts) t (List.mem_cons_self _ _) (hcurr t ?_)
          rw [hcc]
          exact List.mem_cons_self _ _
      have hacc' : ∀ r ∈ acc ++ [joinRow curr], r ≠ [] ∧ ∃ x, r = pyStrip x := by
        intro r hr
        rcases List.mem_append.mp hr with h1 | h1
        · exact hacc r h1
        · rw [List.mem_singleton] at h1
          subst h1
          exact ⟨hjr, joinSep [' '] curr, rfl⟩
      have := ih (acc ++ [joinRow curr]) [s.1.text] s.2.mid_y hacc'
        (by intro t ht; rw [List.mem_singleton] at ht; subst ht; exact hs0) hrest'
      exact ⟨this.1, fun _ => this.2 (Or.inr (Or.inl (by simp)))⟩
    · rw [if_neg hbr]
      have hcurr' : ∀ t ∈ curr ++ [s.1.text], pyStrip t ≠ [] := by
        intro t ht
        rcases List.mem_append.mp ht with h1 | h1
        · exact hcurr t h1
        · rw [List.mem_singleton] at h1
          subst h1
          exact hs0
      have := ih acc (curr ++ [s.1.text]) s.2.mid_y hacc hcurr' hrest'
      exact ⟨this.1, fun _ => this.2 (Or.inr (Or.inl (by simp)))⟩

theorem lineOutput_some (c : Cluster) (hne : c.segs ≠ [])
    (htext : ∀ p ∈ c.segs, pyStrip p.1.text ≠ []) :
    ∃ L, lineOutput c = some L
      ∧ L.children = (pySort segKeyLe c.segs).map Prod.fst
      ∧ lineTop L = c.rect.y_min := by
  unfold lineOutput
  cases hs : pySort segKeyLe c.segs with
  | nil =>
    have hp := pySort_perm segKeyLe c.segs
    rw [hs] at hp
    exact absurd hp.nil_eq.symm hne
  | cons s0 tail =>
    simp only []
    have htext' : ∀ p ∈ s0 :: tail, pyStrip p.1.text ≠ [] := by
      intro p hp
      refine htext p ?_
      have := (pySort_perm segKeyLe c.segs).subset
      rw [hs] at this
      exact this hp
    have hfacts := rowsGo_facts (max 8 (c.rect.height * (35/100))) (s0 :: tail)
      [] [] s0.2.mid_y (by simp) (by simp) htext'
    have hrows_ne : rowsGo (max 8 (c.rect.height * (35/100))) [] [] s0.2.mid_y
        (s0 :: tail) ≠ [] := hfacts.2 (Or.inr (Or.inr (by simp)))
    have hclean : pyStrip (joinSep ['\n']
        ((rowsGo (max 8 (c.rect.height * (35/100))) [] [] s0.2.mid_y
          (s0 :: tail)).filter fun r => r ≠ [])) ≠ [] := by
      cases hrr : rowsGo (max 8 (c.rect.height * (35/100))) [] [] s0.2.mid_y
          (s0 :: tail) with
      | nil => exact absurd hrr hrows_ne
      | cons r0 rs =>
        obtain ⟨hr0ne, x, hx⟩ := hfacts.1 r0 (hrr ▸ List.mem_cons_self r0 rs)
        cases hr0 : r0 with
        | nil => exact absurd hr0 hr0ne
        | cons ch rchars =>
          have hch : isSpaceChar ch = false := by
            refine pyStrip_head_not_space x ch ?_
            rw [← hx, hr0]
            rfl
          have hmem : ch ∈ joinSep ['\n'] ((r0 :: rs).filter fun r => r ≠ []) := by
            refine joinSep_mem_of ['\n'] _ r0 ?_ ch (by rw [hr0]; simp)
            rw [List.mem_filter]
            exact ⟨List.mem_cons_self _ _, by simpa using hr0ne⟩
          intro hcon
          rw [pyStrip_eq_nil_iff] at hcon
          rw [hr0] at hmem
          have hcontra := hcon ch hmem
          simp [hch] at hcontra
    rw [if_neg hclean]
    exact ⟨_, rfl, rfl, rfl⟩

theorem filterMap_lineOutput_facts (ls : List Cluster)
    (h : ∀ c ∈ ls, c.segs ≠ [] ∧ ∀ p ∈ c.segs, pyStrip p.1.text ≠ []) :
    ((ls.filterMap lineOutput).flatMap Line.children
        = ls.flatMap fun c => (pySort segKeyLe c.segs).map Prod.fst)
      ∧ (ls.filterMap lineOutput).map lineTop = ls.map fun c => c.rect.y_min := by
  induction ls with
  | nil => simp
  | cons c t ih =>
    obtain ⟨L, hL, hch, htop⟩ := lineOutput_some c (h c (List.mem_cons_self _ _)).1
      (h c (List.mem_cons_self _ _)).2
    have iht := ih fun d hd => h d (List.mem_cons_of_mem _ hd)
    rw [List.filterMap_cons, hL]
    constructor
    · simp only [List.flatMap_cons, iht.1, hch]
    · simp only [List.map_cons, iht.2, htop]

theorem perm_flatMap_map_fst (ls : List Cluster) :
    (ls.flatMap fun c => (pySort segKeyLe c.segs).map Prod.fst).Perm
      ((ls.flatMap Cluster.segs).map Prod.fst) := by
  induction ls with
  | nil => simp
  | cons c t ih =>
    simp only [List.flatMap_cons, List.map_append]
    exact (((pySort_perm segKeyLe c.segs).map Prod.fst).append_right _).trans
      (ih.append_left _)

theorem processedOf_eq_map (segs : List Segment)
    (h : ∀ s ∈ segs, pyStrip s.text ≠ [] ∧ s.bbox.length = 4) :
    processedOf segs = segs.map fun s => (s, bbox_to_rect s.bbox) := by
  induction segs with
  | nil => rfl
  | cons s t ih =>
    have hs := h s (List.mem_cons_self _ _)
    have ht := ih fun d hd => h d (List.mem_cons_of_mem _ hd)
    rw [processedOf, List.filterMap_cons, if_pos (by simpa using hs)]
    dsimp only []
    rw [List.map_cons, ← ht]
    rfl

/-- C4: under the input contract (non-empty normalized text, 4-point
bbox), `merge_segments_into_lines` neither drops nor duplicates a
segment — the concatenation of the output lines' children is a
permutation of the input — and the output lines appear in
top-to-bottom order of their bbox tops. -/
theorem C4_merge_conservation (segs : List Segment)
    (h : ∀ s ∈ segs, pyStrip s.text ≠ [] ∧ s.bbox.length = 4) :
    ((merge_segments_into_lines segs).flatMap Line.children).Perm segs
      ∧ ((merge_segments_into_lines segs).map lineTop).Pairwise (· ≤ ·) := by
  by_cases hnil : segs = []
  · subst hnil
    simp [merge_segments_into_lines]
  · unfold merge_segments_into_lines
    rw [if_neg hnil]
    simp only []
    have hproc := processedOf_eq_map segs h
    -- every SegR reachable from the clusters carries non-empty stripped text
    have htextP : ∀ p ∈ pySort segKeyLe (processedOf segs), pyStrip p.1.text ≠ [] := by
      intro p hp
      have hmem := (pySort_perm segKeyLe (processedOf segs)).subset hp
      rw [hproc] at hmem
      rcases List.mem_map.mp hmem with ⟨s, hsm, rfl⟩
      exact (h s hsm).1
    have hblocks : ∀ c ∈ phase2 (pySort (fun a b : Cluster =>
        a.rect.y_min ≤ b.rect.y_min) (phase1Clusters segs)),
        c.segs ≠ [] ∧ ∀ p ∈ c.segs, pyStrip p.1.text ≠ [] := by
      intro c hc
      have hsegsmem : ∀ p ∈ c.segs, pyStrip p.1.text ≠ [] := by
        intro p hp
        have h1 : p ∈ (phase2 (pySort (fun a b : Cluster =>
            a.rect.y_min ≤ b.rect.y_min) (phase1Clusters segs))).flatMap
              Cluster.segs :=
          List.mem_flatMap.mpr ⟨c, hc, hp⟩
        rw [phase2_flatMap] at h1
        have h2 := (List.Perm.flatMap_right Cluster.segs
          (pySort_perm (fun a b : Cluster => a.rect.y_min ≤ b.rect.y_min)
            (phase1Clusters segs))).subset h1
        have h3 := (phase1_flatMap (pySort segKeyLe (processedOf segs))).subset h2
        exact htextP p h3
      refine ⟨?_, hsegsmem⟩
      refine phase2_segs_ne_nil _ ?_ c hc
      intro d hd
      refine phase1_segs_ne_nil (pySort segKeyLe (processedOf segs)) d ?_
      have hmem := (pySort_perm (fun a b : Cluster => a.rect.y_min ≤ b.rect.y_min)
        (phase1Clusters segs)).subset hd
      simpa [phase1Clusters] using hmem
    have hfacts := filterMap_lineOutput_facts _ hblocks
    constructor
    · rw [hfacts.1]
      refine (perm_flatMap_map_fst _).trans ?_
      rw [phase2_flatMap]
      refine (((List.Perm.flatMap_right Cluster.segs
        (pySort_perm _ (phase1Clusters segs))).map Prod.fst)).trans ?_
      refine (((phase1_flatMap (pySort segKeyLe (processedOf segs))).map
        Prod.fst)).trans ?_
      refine (((pySort_perm segKeyLe (processedOf segs)).map Prod.fst)).trans ?_
      rw [hproc]
      rw [List.map_map]
      have hid : (Prod.fst ∘ fun s : Segment => (s, bbox_to_rect s.bbox)) = id := rfl
      rw [hid, List.map_id]
    · rw [hfacts.2]
      rw [List.pairwise_map]
      refine phase2_pairwise _ ?_
      have hsorted := pySort_sorted (fun a b : Cluster =>
          a.rect.y_min ≤ b.rect.y_min)
        (fun a b => by
          rcases le_total a.rect.y_min b.rect.y_min with hle | hle
          · exact Or.inl (by simpa using hle)
          · exact Or.inr (by simpa using hle))
        (fun a b c hab hbc => by
          simp only [decide_eq_true_eq] at *
          exact le_trans hab hbc)
        (phase1Clusters segs)
      refine hsorted.imp ?_
      intro a b hab
      simpa using hab

unseal Rat.add Rat.mul Rat.inv Rat.sub in
theorem C4_merge_conservation_witness :
    ((merge_segments_into_lines
        [⟨"Hello".toList, [(0,0),(50,0),(50,20),(0,20)], 9/10⟩,
         ⟨"World".toList, [(60,0),(110,0),(110,20),(60,20)], 9/10⟩]).flatMap
          Line.children).Perm
        [⟨"Hello".toList, [(0,0),(50,0),(50,20),(0,20)], 9/10⟩,
         ⟨"World".toList, [(60,0),(110,0),(110,20),(60,20)], 9/10⟩]
      ∧ ((merge_segments_into_lines
        [⟨"Hello".toList, [(0,0),(50,0),(50,20),(0,20)], 9/10⟩,
         ⟨"World".toList, [(60,0),(110,0),(110,20),(60,20)], 9/10⟩]).map
          lineTop).Pairwise (· ≤ ·) :=
  C4_merge_conservation
    [⟨"Hello".toList, [(0,0),(50,0),(50,20),(0,20)], 9/10⟩,
     ⟨"World".toList, [(60,0),(110,0),(110,20),(60,20)], 9/10⟩]
    (by decide)

unseal Rat.add Rat.mul Rat.inv Rat.sub in
theorem C1_confidence_floor_witness :
    MIN_CONFIDENCE ≤ sampleCand.confidence
      ∧ MIN_CONFIDENCE ≤ sampleCand.confidence
      ∧ ocr [lowDet] false [] [] [] [] [] = OcrResponse.noText :=
  ⟨C1_confidence_floor.1 "original_easyocr".toList "original".toList
      [sampleDet] sampleCand (by decide),
   C1_confidence_floor.2.1 [sampleDet] false [] [] [] [] [] sampleCand (by decide),
   C1_confidence_floor.2.2 [lowDet] false [] [] [] [] [] (by decide)⟩

theorem wordsGo_flatten (l : Str) :
    ∀ cur : Option Str, (wordsGo cur l).flatten
      = cur.getD [] ++ l.filter fun c => ¬ isSpaceChar c := by
  induction l with
  | nil =>
    intro cur
    cases cur <;> simp [wordsGo]
  | cons c r ih =>
    intro cur
    by_cases hs : isSpaceChar c
    · cases cur with
      | none => simp [wordsGo, hs, ih none]
      | some w => simp [wordsGo, hs, ih none]
    · cases cur with
      | none => simp [wordsGo, hs, ih (some [c])]
      | some w => simp [wordsGo, hs, ih (some (w ++ [c]))]

theorem pyWords_flatten (l : Str) :
    (pyWords l).flatten = l.filter fun c => ¬ isSpaceChar c := by
  simpa using wordsGo_flatten l none

theorem wordsGo_some_ne_nil (l : Str) : ∀ w : Str, wordsGo (some w) l ≠ [] := by
  induction l with
  | nil => intro w; simp [wordsGo]
  | cons a r ih =>
    intro w
    by_cases ha : isSpaceChar a
    · simp [wordsGo, ha]
    · simpa [wordsGo, ha] using ih (w ++ [a])

theorem wordsGo_ne_nil (l : Str) (c : Char) (hc : c ∈ l) (hs : ¬ isSpaceChar c) :
    ∀ cur : Option Str, wordsGo cur l ≠ [] := by
  induction l with
  | nil => simp at hc
  | cons a r ih =>
    intro cur
    by_cases ha : isSpaceChar a
    · have hcr : c ∈ r := by
        rcases List.mem_cons.mp hc with rfl | h
        · exact absurd ha hs
        · exact h
      cases cur with
      | none => simpa [wordsGo, ha] using ih hcr none
      | some w => simp [wordsGo, ha]
    · cases cur with
      | none =>
        simpa [wordsGo, ha] using wordsGo_some_ne_nil r [a]
      | some w =>
        simpa [wordsGo, ha] using wordsGo_some_ne_nil r (w ++ [a])

theorem wordsGo_words_ne_nil (l : Str) :
    ∀ cur : Option Str, (∀ v, cur = some v → v ≠ []) →
      ∀ w ∈ wordsGo cur l, w ≠ [] := by
  induction l with
  | nil =>
    intro cur hcur w hw
    cases cur with
    | none => simp [wordsGo] at hw
    | some v =>
      simp [wordsGo] at hw
      subst hw
      exact hcur w rfl
  | cons a r ih =>
    intro cur hcur w hw
    by_cases ha : isSpaceChar a
    · cases cur with
      | none =>
        rw [wordsGo, if_pos ha] at hw
        exact ih none (by simp) w hw
      | some v =>
        rw [wordsGo, if_pos ha] at hw
        rcases List.mem_cons.mp hw with rfl | h
        · exact hcur w rfl
        · exact ih none (by simp) w h
    · cases cur with
      | none =>
        rw [wordsGo, if_neg ha] at hw
        exact ih (some [a]) (by simp) w hw
      | some v =>
        rw [wordsGo, if_neg ha] at hw
        refine ih (some (v ++ [a])) ?_ w hw
        intro u hu
        simp at hu
        subst hu
        simp

theorem pyWords_words_ne_nil (l : Str) : ∀ w ∈ pyWords l, w ≠ [] :=
  wordsGo_words_ne_nil l none (by simp)

theorem charSplitGo_flatten (measure : Str → ℤ) (mw : ℤ) (l : Str) :
    ∀ buffer : Str, (charSplitGo measure mw buffer l).flatten = buffer ++ l := by
  induction l with
  | nil =>
    intro buffer
    by_cases hb : buffer = []
    · simp [charSplitGo, hb]
    · simp [charSplitGo, hb]
  | cons ch rest ih =>
    intro buffer
    simp only [charSplitGo]
    by_cases hfit : measure (buffer ++ [ch]) ≤ mw
    · rw [if_pos hfit, ih (buffer ++ [ch])]
      simp
    · rw [if_neg hfit]
      by_cases hb : buffer = []
      · simp [hb, ih [ch]]
      · simp [hb, ih [ch]]

theorem charSplitGo_ne_nil (measure : Str → ℤ) (mw : ℤ) (l : Str) :
    ∀ buffer : Str, buffer ++ l ≠ [] → charSplitGo measure mw buffer l ≠ [] := by
  induction l with
  | nil =>
    intro buffer hne
    simp only [List.append_nil] at hne
    simp [charSplitGo, hne]
  | cons ch rest ih =>
    intro buffer _
    simp only [charSplitGo]
    by_cases hfit : measure (buffer ++ [ch]) ≤ mw
    · rw [if_pos hfit]
      exact ih (buffer ++ [ch]) (by simp)
    · rw [if_neg hfit]
      have h2 := ih [ch] (by simp)
      intro hcon
      rcases List.append_eq_nil.mp hcon with ⟨_, h⟩
      exact h2 h

theorem wrapGreedy_filter (measure : Str → ℤ) (mw : ℤ) (ws : List Str) :
    ∀ curr : Str, ((wrapGreedy measure mw curr ws).flatten.filter fun c => c ≠ ' ')
      = (curr ++ ws.flatten).filter fun c => c ≠ ' ' := by
  induction ws with
  | nil => intro curr; simp [wrapGreedy]
  | cons w t ih =>
    intro curr
    simp only [wrapGreedy]
    by_cases hfit : measure (curr ++ ' ' :: w) ≤ mw
    · rw [if_pos hfit, ih (curr ++ ' ' :: w)]
      simp [List.filter_append]
    · rw [if_neg hfit]
      simp only [List.flatten_cons, List.filter_append, ih w]
      try simp [List.filter_append]

theorem wrapGreedy_ne_nil (measure : Str → ℤ) (mw : ℤ) (ws : List Str) :
    ∀ curr : Str, wrapGreedy measure mw curr ws ≠ [] := by
  induction ws with
  | nil => intro curr; simp [wrapGreedy]
  | cons w t ih =>
    intro curr
    simp only [wrapGreedy]
    by_cases hfit : measure (curr ++ ' ' :: w) ≤ mw
    · rw [if_pos hfit]
      exact ih (curr ++ ' ' :: w)
    · rw [if_neg hfit]
      simp

theorem wrapGreedy_lines_ne_nil (measure : Str → ℤ) (mw : ℤ) (ws : List Str) :
    ∀ curr : Str, curr ≠ [] → (∀ w ∈ ws, w ≠ []) →
      ∀ line ∈ wrapGreedy measure mw curr ws, line ≠ [] := by
  induction ws with
  | nil =>
    intro curr hc _ line hl
    simp [wrapGreedy] at hl
    subst hl
    exact hc
  | cons w t ih =>
    intro curr hc hws line hl
    simp only [wrapGreedy] at hl
    by_cases hfit : measure (curr ++ ' ' :: w) ≤ mw
    · rw [if_pos hfit] at hl
      exact ih (curr ++ ' ' :: w) (by simp) (fun v hv => hws v (List.mem_cons_of_mem _ hv))
        line hl
    · rw [if_neg hfit] at hl
      rcases List.mem_cons.mp hl with rfl | h
      · exact hc
      · exact ih w (hws w (List.mem_cons_self _ _))
          (fun v hv => hws v (List.mem_cons_of_mem _ hv)) line h

/-- C10: word wrapping loses no text.  For every measuring function
(font), every positive maximum width, and every input containing a
non-whitespace character, the wrapped lines are non-empty and their
concatenation, with all spaces deleted, equals the input with all
whitespace deleted, characters in order — including when the
per-character fallback splits an over-wide word. -/
theorem C10_wrap_preserves_text (measure : Str → ℤ) (max_width : ℤ) (text : Str)
    (hpos : 0 < max_width) (hne : ∃ c ∈ text, ¬ isSpaceChar c) :
    wrap_text_to_width measure max_width text ≠ []
      ∧ ((wrap_text_to_width measure max_width text).flatten.filter fun c => c ≠ ' ')
          = text.filter fun c => ¬ isSpaceChar c := by
  clear hpos
  obtain ⟨c0, hc0, hc0s⟩ := hne
  unfold wrap_text_to_width
  cases hw : pyWords text with
  | nil => exact absurd hw (wordsGo_ne_nil text c0 hc0 (by simpa using hc0s) none)
  | cons w ws =>
    simp only []
    have hwne : ∀ v ∈ w :: ws, v ≠ [] := by
      rw [← hw]
      exact pyWords_words_ne_nil text
    constructor
    · have hl := wrapGreedy_ne_nil measure max_width ws w
      cases hgl : wrapGreedy measure max_width w ws with
      | nil => exact absurd hgl hl
      | cons l0 ls =>
        have hl0 : l0 ≠ [] := by
          refine wrapGreedy_lines_ne_nil measure max_width ws w
            (hwne w (List.mem_cons_self _ _))
            (fun v hv => hwne v (List.mem_cons_of_mem _ hv)) l0 ?_
          rw [hgl]
          exact List.mem_cons_self _ _
        intro hcon
        simp only [List.flatMap_cons] at hcon
        rcases List.append_eq_nil.mp hcon with ⟨h1, _⟩
        by_cases hfit : measure l0 ≤ max_width
        · rw [if_pos hfit] at h1
          simp at h1
        · rw [if_neg hfit] at h1
          exact charSplitGo_ne_nil measure max_width l0 [] (by simpa using hl0) h1
    · have himg : ∀ lines : List Str,
          (lines.flatMap fun line => if measure line ≤ max_width then [line]
            else charSplitGo measure max_width [] line).flatten = lines.flatten := by
        intro lines
        induction lines with
        | nil => simp
        | cons l ls ihl =>
          simp only [List.flatMap_cons, List.flatten_append, ihl]
          by_cases hfit : measure l ≤ max_width
          · simp [hfit]
          · rw [if_neg hfit]
            simp [charSplitGo_flatten measure max_width l []]
      rw [himg, wrapGreedy_filter]
      have hflat : w ++ ws.flatten = text.filter fun c => ¬ isSpaceChar c := by
        have := pyWords_flatten text
        rw [hw] at this
        simpa using this
      rw [hflat]
      rw [List.filter_filter]
      apply List.filter_congr
      intro x _
      by_cases hsp : isSpaceChar x
      · simp [hsp]
      · have hxs : x ≠ ' ' := by
          intro hx'
          subst hx'
          exact hsp (by decide)
        simp [hsp, hxs]

/-- C10 witness at a concrete font and text. -/
theorem C10_wrap_preserves_text_witness :
    wrap_text_to_width (fun s => (s.length : ℤ)) 1 "ab cd".toList ≠ []
      ∧ ((wrap_text_to_width (fun s => (s.length : ℤ)) 1 "ab cd".toList).flatten.filter
          fun c => c ≠ ' ')
        = "ab cd".toList.filter fun c => ¬ isSpaceChar c :=
  C10_wrap_preserves_text (fun s => (s.length : ℤ)) 1 "ab cd".toList (by decide)
    ⟨'a', by decide, by decide⟩

unseal Rat.add Rat.mul Rat.inv Rat.sub in
theorem C2_short_circuit_witness :
    ∃ b : Candidate, firstMaxConf (ocr_with_easyocr [sampleDet] false []) = some b
      ∧ b ∈ ocr_with_easyocr [sampleDet] false []
      ∧ (∀ c ∈ ocr_with_easyocr [sampleDet] false [], c.confidence ≤ b.confidence)
      ∧ ∀ adaptive otsu grayscale grayscaleInverted : List Detection,
          ocr [sampleDet] false [] adaptive otsu grayscale grayscaleInverted
            = .found b :=
  C2_short_circuit [sampleDet] false [] sampleCand (by decide) (by decide)

theorem unionRect_y_max (a b : Rect) :
    (unionRect a b).y_max = max a.y_max b.y_max := rfl

theorem foldl_min_le (x : ℚ) (l : List ℚ) : l.foldl min x ≤ x := by
  induction l generalizing x with
  | nil => exact le_refl x
  | cons a t ih => exact le_trans (ih (min x a)) (min_le_left _ _)

theorem le_foldl_max (x : ℚ) (l : List ℚ) : x ≤ l.foldl max x := by
  induction l generalizing x with
  | nil => exact le_refl x
  | cons a t ih => exact le_trans (le_max_left _ _) (ih (max x a))

theorem bbox_to_rect_wf (bbox : List (ℚ × ℚ)) (h : bbox ≠ []) :
    (bbox_to_rect bbox).y_min ≤ (bbox_to_rect bbox).mid_y ∧
      (bbox_to_rect bbox).mid_y ≤ (bbox_to_rect bbox).y_max := by
  cases bbox with
  | nil => exact absurd rfl h
  | cons p t =>
    have hy : listMin ((p :: t).map Prod.snd) ≤ listMax ((p :: t).map Prod.snd) := by
      rw [List.map_cons]
      exact le_trans (foldl_min_le p.2 (t.map Prod.snd))
        (le_foldl_max p.2 (t.map Prod.snd))
    have hmin : (bbox_to_rect (p :: t)).y_min = listMin ((p :: t).map Prod.snd) := rfl
    have hmax : (bbox_to_rect (p :: t)).y_max = listMax ((p :: t).map Prod.snd) := rfl
    have hmid : (bbox_to_rect (p :: t)).mid_y
        = (listMin ((p :: t).map Prod.snd) + listMax ((p :: t).map Prod.snd)) / 2 := rfl
    rw [hmin, hmax, hmid]
    constructor <;> linarith

theorem mem_processedOf (segments : List Segment) (p : SegR)
    (hp : p ∈ processedOf segments) :
    p.1 ∈ segments ∧ p.2 = bbox_to_rect p.1.bbox ∧ p.1.bbox.length = 4 := by
  simp only [processedOf, List.mem_filterMap] at hp
  obtain ⟨a, ha, hfa⟩ := hp
  by_cases hcnd : pyStrip a.text ≠ [] ∧ a.bbox.length = 4
  · rw [if_pos hcnd] at hfa
    have hpa := Option.some.inj hfa
    subst hpa
    exact ⟨ha, rfl, hcnd.2⟩
  · rw [if_neg hcnd] at hfa
    simp at hfa

theorem place_y_inv (cs : List Cluster) (s : SegR)
    (hcs : ∀ c ∈ cs, ∀ a ∈ c.segs,
      c.rect.y_min ≤ a.2.mid_y ∧ a.2.mid_y ≤ c.rect.y_max)
    (hs : s.2.y_min ≤ s.2.mid_y ∧ s.2.mid_y ≤ s.2.y_max) :
    ∀ c ∈ place cs s, ∀ a ∈ c.segs,
      c.rect.y_min ≤ a.2.mid_y ∧ a.2.mid_y ≤ c.rect.y_max := by
  induction cs with
  | nil =>
    intro c hc a ha
    have hc' : c = { segs := [s], rect := s.2 } := List.mem_singleton.mp hc
    subst hc'
    have ha' : a ∈ [s] := ha
    have has : a = s := List.mem_singleton.mp ha'
    subst has
    exact hs
  | cons c0 cs ih =>
    intro c hc a ha
    simp only [place] at hc
    by_cases hm : sameRowMatch s.2 c0.rect
    · rw [if_pos hm] at hc
      rcases List.mem_cons.mp hc with h | h
      · subst h
        have ha' : a ∈ c0.segs ++ [s] := ha
        have hrmin : (clusterAdd c0 s).rect.y_min = min c0.rect.y_min s.2.y_min := rfl
        have hrmax : (clusterAdd c0 s).rect.y_max = max c0.rect.y_max s.2.y_max := rfl
        rw [hrmin, hrmax]
        rcases List.mem_append.mp ha' with ha0 | ha1
        · have h0 := hcs c0 (List.mem_cons_self _ _) a ha0
          exact ⟨le_trans (min_le_left _ _) h0.1, le_trans h0.2 (le_max_left _ _)⟩
        · have has : a = s := List.mem_singleton.mp ha1
          subst has
          exact ⟨le_trans (min_le_right _ _) hs.1, le_trans hs.2 (le_max_right _ _)⟩
      · exact hcs c (List.mem_cons_of_mem _ h) a ha
    · rw [if_neg hm] at hc
      rcases List.mem_cons.mp hc with h | h
      · subst h
        exact hcs _ (List.mem_cons_self _ _) a ha
      · exact ih (fun d hd => hcs d (List.mem_cons_of_mem _ hd)) c h a ha

theorem phase1_foldl_y_inv (l : List SegR)
    (hl : ∀ s ∈ l, s.2.y_min ≤ s.2.mid_y ∧ s.2.mid_y ≤ s.2.y_max) :
    ∀ acc : List Cluster,
      (∀ c ∈ acc, ∀ a ∈ c.segs,
        c.rect.y_min ≤ a.2.mid_y ∧ a.2.mid_y ≤ c.rect.y_max) →
      ∀ c ∈ l.foldl place acc, ∀ a ∈ c.segs,
        c.rect.y_min ≤ a.2.mid_y ∧ a.2.mid_y ≤ c.rect.y_max := by
  induction l with
  | nil =>
    intro acc hacc
    simpa using hacc
  | cons s t ih =>
    intro acc hacc
    rw [List.foldl_cons]
    exact ih (fun d hd => hl d (List.mem_cons_of_mem _ hd)) (place acc s)
      (place_y_inv acc s hacc (hl s (List.mem_cons_self _ _)))

/-- C5 (amended): the `0.60 × max(height)` same-row test is made against
the cluster's running union rect, not pairwise between members, so the
pairwise bound of the spec can be exceeded by chaining.  What does hold
for any two members of a Phase-1 cluster is that both vertical centers
lie within the cluster rect's vertical extent, so the centers of any two
members differ by at most `y_max − y_min` of the cluster's rect. -/
theorem C5_cluster_y_extent (segments : List Segment) :
    ∀ c ∈ phase1Clusters segments, ∀ a ∈ c.segs, ∀ b ∈ c.segs,
      |a.2.mid_y - b.2.mid_y| ≤ c.rect.y_max - c.rect.y_min := by
  intro c hc a ha b hb
  have hwf : ∀ s ∈ pySort segKeyLe (processedOf segments),
      s.2.y_min ≤ s.2.mid_y ∧ s.2.mid_y ≤ s.2.y_max := by
    intro s hs
    have hm := mem_processedOf segments s ((pySort_perm segKeyLe _).subset hs)
    have hb4 : s.1.bbox ≠ [] := by
      intro hnil
      have hlen := hm.2.2
      rw [hnil] at hlen
      simp at hlen
    rw [hm.2.1]
    exact bbox_to_rect_wf s.1.bbox hb4
  have hinv := phase1_foldl_y_inv (pySort segKeyLe (processedOf segments)) hwf []
    (by intro c hc; simp at hc) c hc
  have h1 := hinv a ha
  have h2 := hinv b hb
  rw [abs_sub_le_iff]
  constructor <;> linarith

unseal Rat.add Rat.mul Rat.inv Rat.sub in
theorem C5_cluster_y_extent_witness :
    |(bbox_to_rect dupA.bbox).mid_y - (bbox_to_rect dupA.bbox).mid_y|
      ≤ (bbox_to_rect dupA.bbox).y_max - (bbox_to_rect dupA.bbox).y_min :=
  C5_cluster_y_extent [dupA]
    { segs := [(dupA, bbox_to_rect dupA.bbox)], rect := bbox_to_rect dupA.bbox }
    (by decide) (dupA, bbox_to_rect dupA.bbox) (by decide)
    (dupA, bbox_to_rect dupA.bbox) (by decide)

-- C5 (counterexample): chaining through the middle segment B puts A and
-- C in one Phase-1 cluster although their centers differ by more than
-- 0.60 times the larger of their two heights.
unseal Rat.add Rat.mul Rat.inv Rat.sub in
theorem C5_counterexample :
    (∃ c ∈ phase1Clusters [chainA, chainB, chainC],
        chainA ∈ c.segs.map Prod.fst ∧ chainC ∈ c.segs.map Prod.fst) ∧
    max (bbox_to_rect chainA.bbox).height (bbox_to_rect chainC.bbox).height * (3/5)
      < |(bbox_to_rect chainA.bbox).mid_y - (bbox_to_rect chainC.bbox).mid_y| := by
  decide

theorem segKeyLe_antisymm_keys (a b : SegR) (hab : segKeyLe a b)
    (hba : segKeyLe b a) :
    a.2.y_min = b.2.y_min ∧ a.2.x_min = b.2.x_min := by
  unfold segKeyLe at hab hba
  simp only [Bool.decide_or, Bool.or_eq_true, decide_eq_true_eq,
    Bool.and_eq_true, Bool.decide_and] at hab hba
  rcases hab with h1 | ⟨h1, h1x⟩ <;> rcases hba with h2 | ⟨h2, h2x⟩
  · exact absurd (lt_trans h1 h2) (lt_irrefl _)
  · rw [h2] at h1
    exact absurd h1 (lt_irrefl _)
  · rw [h1] at h2
    exact absurd h2 (lt_irrefl _)
  · exact ⟨h1, le_antisymm h1x h2x⟩

theorem phase1Clusters_perm_eq (l₁ l₂ : List Segment) (hp : l₁.Perm l₂)
    (hkeys : l₁.Pairwise fun a b =>
      ((bbox_to_rect a.bbox).y_min, (bbox_to_rect a.bbox).x_min)
        ≠ ((bbox_to_rect b.bbox).y_min, (bbox_to_rect b.bbox).x_min)) :
    phase1Clusters l₁ = phase1Clusters l₂ := by
  have anti : ∀ a b, a ∈ processedOf l₁ → b ∈ processedOf l₁ →
      segKeyLe a b → segKeyLe b a → a = b := by
    intro a b ha hb h1 h2
    have hma := mem_processedOf l₁ a ha
    have hmb := mem_processedOf l₁ b hb
    have hk := segKeyLe_antisymm_keys a b h1 h2
    by_cases h12 : a.1 = b.1
    · have h22 : a.2 = b.2 := by rw [hma.2.1, hmb.2.1, h12]
      exact Prod.ext_iff.mpr ⟨h12, h22⟩
    · have hsym : Symmetric (fun a b : Segment =>
          ((bbox_to_rect a.bbox).y_min, (bbox_to_rect a.bbox).x_min)
            ≠ ((bbox_to_rect b.bbox).y_min, (bbox_to_rect b.bbox).x_min)) :=
        fun _ _ hxy h => hxy h.symm
      have hR := hkeys.forall hsym hma.1 hmb.1 h12
      exact absurd (by rw [← hma.2.1, ← hmb.2.1, hk.1, hk.2]) hR
  have hs := pySort_eq_of_perm segKeyLe segKeyLe_total segKeyLe_trans
    (processedOf l₁) (processedOf l₂) anti (hp.filterMap _)
  unfold phase1Clusters
  rw [hs]

/-- C8 (amended): geometry merging is order-independent on segment lists
whose `(y_min, x_min)` sort keys are pairwise distinct — the stable sort
then admits a unique sorted order, so any permutation of the input yields
identical output lines.  With duplicate keys the stable sort preserves
input order and permuting the input can change the output, so the
unconditional claim fails. -/
theorem C8_order_invariance_distinct_keys (l₁ l₂ : List Segment)
    (hp : l₁.Perm l₂)
    (hkeys : l₁.Pairwise fun a b =>
      ((bbox_to_rect a.bbox).y_min, (bbox_to_rect a.bbox).x_min)
        ≠ ((bbox_to_rect b.bbox).y_min, (bbox_to_rect b.bbox).x_min)) :
    merge_segments_into_lines l₁ = merge_segments_into_lines l₂ := by
  have hpc := phase1Clusters_perm_eq l₁ l₂ hp hkeys
  by_cases h1 : l₁ = []
  · have h2 : l₂ = [] := by
      subst h1
      exact hp.nil_eq.symm
    rw [h1, h2]
  · have h2 : l₂ ≠ [] := fun h2 => h1 ((h2 ▸ hp).eq_nil)
    simp only [merge_segments_into_lines, if_neg h1, if_neg h2, hpc]

unseal Rat.add Rat.mul Rat.inv Rat.sub in
theorem C8_order_invariance_witness :
    merge_segments_into_lines [chainA, chainB]
      = merge_segments_into_lines [chainB, chainA] :=
  C8_order_invariance_distinct_keys [chainA, chainB] [chainB, chainA]
    (List.Perm.swap chainB chainA []) (by decide)

-- C8 (counterexample): two segments sharing one bbox, hence one sort
-- key; swapping them swaps the order the stable sort keeps, and the
-- merged line reads A B one way and B A the other.
unseal Rat.add Rat.mul Rat.inv Rat.sub in
theorem C8_counterexample :
    ([dupA, dupB] : List Segment).Perm [dupB, dupA] ∧
    merge_segments_into_lines [dupA, dupB]
      ≠ merge_segments_into_lines [dupB, dupA] :=
  ⟨List.Perm.swap dupB dupA [], by decide⟩

end OCR
